import Mathlib

/-!
Verification of the praxis-cli document compiler and validation cache.

This file gives a shallow embedding, in Lean 4, of the core components of
the repository: the frontmatter/markdown splitting (`src/compiler/frontmatter.ts`,
`src/compiler/markdown.ts`), the compiled-output assembly
(`src/compiler/output-builder.ts`), the glob expansion filter
(`src/compiler/glob-expander.ts`), the validation cache
(`src/validator/cache-manager.ts`) and the batch validation orchestrator
(`src/validator/batch-validator.ts`).

Conventions of the embedding:
- JavaScript strings are modelled as Lean `String`; all string operations
  are defined over the underlying `List Char` (`String.data`), matching the
  JS code-unit semantics on the ASCII/BMP inputs the program handles.
- The filesystem is explicit state: the validation cache directory is an
  association list from cache file path to stored file content; a stored
  file either holds structurally valid JSON of the cache schema or is a
  corrupt blob of bytes that `JSON.parse` rejects.
- External collaborators (`js-yaml`'s `load`, `fast-glob`'s match list, the
  LLM classifier behind `DocumentValidator`) are parameters of the embedded
  functions: the theorems quantify over their possible behaviours.
- Node's `path.dirname` / `path.basename` / `path.join` (POSIX) are modelled
  segment-wise, matching Node's documented behaviour.
-/

set_option autoImplicit false

/-! ## Basic string machinery (List Char based) -/

/-- Join a list of strings with a separator, as `Array.prototype.join` / repeated
string concatenation in JS. -/
def joinSep (sep : String) : List String → String
  | [] => ""
  | [s] => s
  | s :: rest => s ++ sep ++ joinSep sep (rest)

/-- JS `String.prototype.startsWith`, via character-list prefixes. -/
def jsStartsWith (s pat : String) : Bool :=
  pat.data.isPrefixOf s.data

/-- JS `String.prototype.slice(i)` (single argument, non-negative index). -/
def sliceFrom (s : String) (i : Nat) : String :=
  ⟨s.data.drop i⟩

/-- JS `String.prototype.slice(a, b)` for non-negative indices: characters from
position `a` (inclusive) to `b` (exclusive); empty when `b ≤ a`. -/
def sliceRange (s : String) (a b : Nat) : String :=
  ⟨(s.data.take b).drop a⟩

/-- Scanning helper for `findIdxFrom`: try to match `pat` at the head of
each successive suffix, tracking the absolute index `i`. -/
def findIdxAux (pat : List Char) : List Char → Nat → Option Nat
  | [], i => if pat.isPrefixOf [] then some i else none
  | c :: rest, i =>
    if pat.isPrefixOf (c :: rest) then some i
    else findIdxAux pat rest (i + 1)

/-- First index `i ≥ start` at which `pat` occurs in `s`, as JS
`String.prototype.indexOf(pat, start)` for a non-empty `pat`; `none` plays
the role of `-1`. -/
def findIdxFrom (s pat : List Char) (start : Nat) : Option Nat :=
  findIdxAux pat (s.drop start) start

/-! ## OutputBuilder (`src/compiler/output-builder.ts`) -/

/-- Metadata for generating agent frontmatter in compiled output
(`AgentMetadata` in `output-builder.ts`). Optional string fields model
TypeScript optional properties; the JS truthiness test on them is
"present and non-empty". -/
structure AgentMetadata where
  name : String
  description : String
  tools : Option String
  model : Option String
  permissionMode : Option String
deriving DecidableEq

/-- Characters that force quoting in `OutputBuilder.quoteIfNeeded`:
the regex class `[:\[\]{}#&*!|>'"%@\x60\\]` by character code. -/
def yamlSpecialCodes : List Nat :=
  [58, 91, 93, 123, 125, 35, 38, 42, 33, 124, 62, 39, 34, 37, 64, 96, 92]

/-- Test of `quoteIfNeeded`'s regex plus its newline check. -/
def needsQuote (s : String) : Bool :=
  s.data.any (fun c => yamlSpecialCodes.contains c.toNat) || s.data.contains '\n'

/-- Escaping performed inside `quoteIfNeeded`: `\` doubled first, then `"`
prefixed with a backslash. -/
def escapeQuoted (s : String) : String :=
  ⟨((s.data.flatMap (fun c => if c = '\\' then ['\\', '\\'] else [c])).flatMap
      (fun c => if c = '"' then ['\\', '"'] else [c]))⟩

/-- `OutputBuilder.quoteIfNeeded`: wrap a YAML scalar in double quotes when it
contains special characters. -/
def quoteIfNeeded (s : String) : String :=
  if needsQuote s then "\"" ++ escapeQuoted s ++ "\"" else s

/-- `OutputBuilder.buildClaudeCodeFrontmatter`: the optional leading metadata
block; `none` when metadata is absent or name/description is empty (JS
falsiness of the required fields). -/
def buildClaudeCodeFrontmatter (m : Option AgentMetadata) : Option String :=
  match m with
  | none => none
  | some md =>
    if md.name = "" ∨ md.description = "" then none
    else
      let lines : List String :=
        ["---", "name: " ++ md.name, "description: " ++ quoteIfNeeded md.description]
          ++ (match md.tools with
              | some t => if t = "" then [] else ["tools: " ++ t]
              | none => [])
          ++ (match md.model with
              | some t => if t = "" then [] else ["model: " ++ t]
              | none => [])
          ++ (match md.permissionMode with
              | some t => if t = "" then [] else ["permissionMode: " ++ t]
              | none => [])
          ++ ["---"]
      some (joinSep "\n" lines)

/-- `OutputBuilder.buildSection`: heading plus content blocks joined by the
section separator. -/
def buildSection (title : String) (contents : List String) (sep : String) : String :=
  "# " ++ title ++ "\n\n" ++ joinSep sep contents ++ "\n"

/-- The accumulated state of an `OutputBuilder` instance right before `build()`
is called: metadata from the constructor and the five `add*` slots. -/
structure OutputState where
  agentMetadata : Option AgentMetadata
  role : Option String
  responsibilities : List String
  constitution : List String
  context : List String
  reference : List String

/-- Separator between items of Responsibilities, Context and Reference
(`SEPARATOR` in `output-builder.ts`). -/
def hrSeparator : String := "\n---\n"

/-- Separator between items of the Constitution section (`BLANK_SEPARATOR`). -/
def blankSeparator : String := "\n"

/-- `OutputBuilder.build`: straight translation of the section-pushing `if`
chain followed by the final `join("\n")`. The `role` test mirrors JS
truthiness of a `string | null` field. -/
def build (st : OutputState) : String :=
  let sections : List String :=
    (match buildClaudeCodeFrontmatter st.agentMetadata with
     | some f => if f = "" then [] else [f]
     | none => [])
    ++ (match st.role with
        | some r => if r = "" then [] else [buildSection "Role" [r] blankSeparator]
        | none => [])
    ++ (if 0 < st.responsibilities.length then
          [buildSection "Responsibilities" st.responsibilities hrSeparator] else [])
    ++ (if 0 < st.constitution.length then
          [buildSection "Constitution" st.constitution blankSeparator] else [])
    ++ (if 0 < st.context.length then
          [buildSection "Context" st.context hrSeparator] else [])
    ++ (if 0 < st.reference.length then
          [buildSection "Reference" st.reference hrSeparator] else [])
  joinSep "\n" sections

/-- Names of the five content sections, used to state the ordering claim. -/
inductive SectionTag where
  | role
  | responsibilities
  | constitution
  | context
  | reference
deriving DecidableEq

/-- The fixed section order promised by the spec: primary body, owned work,
immutable context, general context, reference. -/
def sectionOrder : List SectionTag :=
  [.role, .responsibilities, .constitution, .context, .reference]

/-- Whether a section has content to show (the builder's emission condition). -/
def populatedTag (st : OutputState) : SectionTag → Bool
  | .role => match st.role with
             | some r => decide (r ≠ "")
             | none => false
  | .responsibilities => decide (0 < st.responsibilities.length)
  | .constitution => decide (0 < st.constitution.length)
  | .context => decide (0 < st.context.length)
  | .reference => decide (0 < st.reference.length)

/-- The rendered form of one populated section. -/
def renderTag (st : OutputState) : SectionTag → String
  | .role => buildSection "Role" [st.role.getD ""] blankSeparator
  | .responsibilities => buildSection "Responsibilities" st.responsibilities hrSeparator
  | .constitution => buildSection "Constitution" st.constitution blankSeparator
  | .context => buildSection "Context" st.context hrSeparator
  | .reference => buildSection "Reference" st.reference hrSeparator

/-- The optional leading metadata block, as a zero- or one-element list. -/
def frontmatterPart (st : OutputState) : List String :=
  match buildClaudeCodeFrontmatter st.agentMetadata with
  | some f => [f]
  | none => []

theorem append_ne_empty_of_left_ne_empty (a b : String) (h : a.data ≠ []) :
    a ++ b ≠ "" := by
  intro hEq
  have hd : (a ++ b).data = "".data := congrArg String.data hEq
  rw [String.data_append] at hd
  have hnil : a.data ++ b.data = [] := hd
  exact h (List.append_eq_nil.mp hnil).1

theorem buildClaudeCodeFrontmatter_ne_empty (m : Option AgentMetadata) (f : String)
    (h : buildClaudeCodeFrontmatter m = some f) : f ≠ "" := by
  cases m with
  | none => simp [buildClaudeCodeFrontmatter] at h
  | some md =>
    by_cases hreq : md.name = "" ∨ md.description = ""
    · simp [buildClaudeCodeFrontmatter, hreq] at h
    · simp only [buildClaudeCodeFrontmatter, if_neg hreq, Option.some.injEq] at h
      subst h
      simp only [joinSep, List.cons_append]
      exact append_ne_empty_of_left_ne_empty _ _ (by decide)

/-- C6 — Section ordering: for every combination of section contents, the
built output is the newline-join of the optional metadata block followed by
exactly the populated sections, rendered in the fixed order Role,
Responsibilities, Constitution, Context, Reference; a section with zero
items contributes nothing (no empty headings). -/
theorem outputBuilder_section_order (st : OutputState) :
    build st =
      joinSep "\n"
        (frontmatterPart st ++ (sectionOrder.filter (populatedTag st)).map (renderTag st)) := by
  have hfm : (match buildClaudeCodeFrontmatter st.agentMetadata with
      | some f => if f = "" then [] else [f]
      | none => ([] : List String)) = frontmatterPart st := by
    cases hm : buildClaudeCodeFrontmatter st.agentMetadata with
    | none => simp [frontmatterPart, hm]
    | some f =>
      have := buildClaudeCodeFrontmatter_ne_empty st.agentMetadata f hm
      simp [frontmatterPart, hm, this]
  unfold build
  rw [hfm]
  cases hrole : st.role with
  | none =>
    by_cases h1 : 0 < st.responsibilities.length <;>
    by_cases h2 : 0 < st.constitution.length <;>
    by_cases h3 : 0 < st.context.length <;>
    by_cases h4 : 0 < st.reference.length <;>
    simp [sectionOrder, populatedTag, renderTag, hrole, h1, h2, h3, h4, List.filter]
  | some r =>
    by_cases hr : r = "" <;>
    by_cases h1 : 0 < st.responsibilities.length <;>
    by_cases h2 : 0 < st.constitution.length <;>
    by_cases h3 : 0 < st.context.length <;>
    by_cases h4 : 0 < st.reference.length <;>
    simp [sectionOrder, populatedTag, renderTag, hrole, hr, h1, h2, h3, h4, List.filter]

/-! ## Node `path` (POSIX) model

`path.dirname`, `path.basename` and `path.join` are modelled over the list
of `/`-separated segments of a path, matching Node's documented POSIX
behaviour (trailing slashes ignored for basename/dirname, `.`/`..`/empty
segments resolved by `join`'s normalization). -/

/-- Segments of a character list split at `/`; never returns `[]`
(an empty input gives `[[]]`, mirroring `"".split("/") = [""]`). -/
def splitSeg : List Char → List (List Char)
  | [] => [[]]
  | c :: cs =>
    let rest := splitSeg cs
    if c = '/' then [] :: rest
    else
      match rest with
      | s :: tail => (c :: s) :: tail
      | [] => [[c]]

/-- Inverse of `splitSeg`: interleave `/` between segments. -/
def joinSeg : List (List Char) → List Char
  | [] => []
  | [s] => s
  | s :: rest => s ++ '/' :: joinSeg rest

/-- Drop empty segments at the end of a segment list (paths with trailing
slashes produce them). -/
def dropTrailingEmpty (ss : List (List Char)) : List (List Char) :=
  (ss.reverse.dropWhile (fun s => s.isEmpty)).reverse

/-- Node `path.basename(p)` (no extension argument): the last non-empty
segment, or `""` when the path is empty or all slashes. -/
def plainBase (p : String) : String :=
  match (dropTrailingEmpty (splitSeg p.data)).getLast? with
  | some s => ⟨s⟩
  | none => ""

/-- Node `path.basename(p, ext)`: as `plainBase`, additionally stripping
`ext` when it is a proper suffix of the basename (a basename equal to `ext`
is kept whole; a path equal to `ext` gives `""`; an all-slash path is
returned unchanged by Node's ext-aware scan). -/
def jsBasenameExt (p ext : String) : String :=
  if ext = "" then plainBase p
  else if p = ext then ""
  else if p ≠ "" ∧ p.data.all (fun c => c = '/') then p
  else
    let b := plainBase p
    if ext.data.length < b.data.length ∧ ext.data.isSuffixOf b.data then
      ⟨b.data.take (b.data.length - ext.data.length)⟩
    else b

/-- Node `path.dirname(p)`: everything before the last non-empty segment;
`"."` when there is no directory part, with Node's root special cases. -/
def jsDirname (p : String) : String :=
  let front := (dropTrailingEmpty (splitSeg p.data)).dropLast
  if front = [] then (if jsStartsWith p "/" then "/" else ".")
  else if front = [[]] then "/"
  else if front = [[], []] then "//"
  else ⟨joinSeg front⟩

/-- Segment resolution inside Node `path.normalize`: empty and `.` segments
vanish; `..` pops the previous segment (kept at the head of a relative
path, dropped at the root of an absolute one). `acc` holds the resolved
segments in reverse. -/
def normSegs (isAbs : Bool) : List (List Char) → List (List Char) → List (List Char)
  | [], acc => acc.reverse
  | s :: rest, acc =>
    if s = [] ∨ s = ['.'] then normSegs isAbs rest acc
    else if s = ['.', '.'] then
      match acc with
      | [] => if isAbs then normSegs isAbs rest [] else normSegs isAbs rest [s]
      | t :: tail =>
        if t = ['.', '.'] then normSegs isAbs rest (s :: acc)
        else normSegs isAbs rest tail
    else normSegs isAbs rest (s :: acc)

/-- Node `path.normalize` (POSIX), for a non-empty input. -/
def jsNormalize (p : String) : String :=
  if p = "" then "."
  else
    let isAbs := jsStartsWith p "/"
    let hasTrailing := p.data.getLast? = some '/'
    let core := joinSeg (normSegs isAbs (splitSeg p.data) [])
    if isAbs then
      if core = [] then "/" else ⟨'/' :: core⟩ ++ (if hasTrailing then "/" else "")
    else
      if core = [] then (if hasTrailing then "./" else ".")
      else (⟨core⟩ : String) ++ (if hasTrailing then "/" else "")

/-- Node `path.join(...parts)` (POSIX): concatenate the non-empty parts with
`/` and normalize; `"."` when nothing remains. -/
def jsJoin (parts : List String) : String :=
  let joined := joinSep "/" (parts.filter (fun s => s ≠ ""))
  if joined = "" then "." else jsNormalize joined

/-! ## Batch validation orchestrator (`src/validator/batch-validator.ts`) -/

/-- Severity tier of a non-compliant verdict. -/
inductive Severity where
  | warning
  | error
deriving DecidableEq

/-- Verdict of a single document validation, as stored in cache
(`CachedValidationResult` in `cache-manager.ts`). -/
structure CachedValidationResult where
  compliant : Bool
  issues : List String
  reason : String
  severity : Option Severity
deriving DecidableEq

/-- A cached verdict extended with file path, domain type and filename
(`BatchValidationResult`). -/
structure BatchValidationResult where
  compliant : Bool
  issues : List String
  reason : String
  severity : Option Severity
  path : String
  type : String
  filename : String
deriving DecidableEq

/-- A validation domain: a directory holding a `README.md` specification.
`docPaths` carries the result of `fg.sync("*.md", dir)` for that directory,
abstracting the filesystem listing. -/
structure ValidationDomain where
  dir : String
  readmePath : String
  type : String
  docPaths : List String
deriving DecidableEq

/-- Behaviour of `DocumentValidator.validate` as seen from the batch loop:
given document path and spec path, either a verdict together with the
cache-hit flag, or a thrown error message. -/
def DocValidate : Type := String → String → Except String (CachedValidationResult × Bool)

/-- Mutable state of a `BatchValidator` during `validateAll`. -/
structure BatchState where
  results : List BatchValidationResult
  stoppedEarly : Bool
  hits : Nat
  misses : Nat
deriving DecidableEq

/-- State at entry of `validateAll` (fresh results, fail-fast not tripped). -/
def initialBatchState : BatchState := ⟨[], false, 0, 0⟩

/-- The synthetic result recorded by `validateDocument`'s `catch` block. -/
def mkSyntheticResult (docPath ty msg : String) : BatchValidationResult :=
  { path := docPath, type := ty, filename := plainBase docPath,
    compliant := false, severity := some .error,
    issues := ["Validation failed: " ++ msg], reason := msg }

/-- `BatchValidator.validateDocument`: run the single-document validator,
record cache statistics and append the (possibly synthetic) result. -/
def validateDocument (validate : DocValidate) (st : BatchState)
    (docPath specPath ty : String) : BatchState :=
  match validate docPath specPath with
  | .ok (r, hit) =>
    { st with
      results := st.results ++
        [{ compliant := r.compliant, issues := r.issues, reason := r.reason,
           severity := r.severity, path := docPath, type := ty,
           filename := plainBase docPath }],
      hits := if hit then st.hits + 1 else st.hits,
      misses := if hit then st.misses else st.misses + 1 }
  | .error msg =>
    { st with results := st.results ++ [mkSyntheticResult docPath ty msg] }

/-- Whether a result is a non-compliant error-severity result (the fail-fast
trigger condition). -/
def isErrorResult (r : BatchValidationResult) : Bool :=
  !r.compliant && r.severity == some Severity.error

/-- `BatchValidator.checkFailFast`: trip `stoppedEarly` when the last result
is non-compliant with severity `"error"`. -/
def checkFailFast (failFast : Bool) (st : BatchState) : BatchState :=
  if !failFast then st
  else
    match st.results.getLast? with
    | some last =>
      if !last.compliant && last.severity == some Severity.error then
        { st with stoppedEarly := true }
      else st
    | none => st

/-- The per-document skip test in the `validateAll` loops:
`name === "README.md" || name.startsWith("_")`. -/
def skipDoc (docPath : String) : Bool :=
  plainBase docPath == "README.md" || jsStartsWith (plainBase docPath) "_"

/-- The inner document loop of `validateAll` over one domain's `*.md` files. -/
def runDocs (failFast : Bool) (validate : DocValidate) (specPath ty : String) :
    List String → BatchState → BatchState
  | [], st => st
  | d :: ds, st =>
    if st.stoppedEarly then st
    else if skipDoc d then runDocs failFast validate specPath ty ds st
    else
      runDocs failFast validate specPath ty ds
        (checkFailFast failFast (validateDocument validate st d specPath ty))

/-- The outer domain loop of `validateAll`. -/
def validateAllLoop (failFast : Bool) (validate : DocValidate) :
    List ValidationDomain → BatchState → BatchState
  | [], st => st
  | dom :: rest, st =>
    if st.stoppedEarly then st
    else
      validateAllLoop failFast validate rest
        (runDocs failFast validate dom.readmePath dom.type dom.docPaths st)

/-- `BatchValidator.validateAll`: reset the state, then walk every discovered
domain and its documents. -/
def validateAllRun (failFast : Bool) (validate : DocValidate)
    (domains : List ValidationDomain) : BatchState :=
  validateAllLoop failFast validate domains initialBatchState

/-- The per-document result as a function of the abstract validator: the
verdict extended with path data on success, the synthetic error result on a
thrown error. -/
def resultFor (validate : DocValidate) (specPath ty docPath : String) :
    BatchValidationResult :=
  match validate docPath specPath with
  | .ok (r, _) =>
    { compliant := r.compliant, issues := r.issues, reason := r.reason,
      severity := r.severity, path := docPath, type := ty,
      filename := plainBase docPath }
  | .error msg => mkSyntheticResult docPath ty msg

/-- All results a run would record if nothing stopped it: the non-skipped
documents of every domain, in iteration order. -/
def eligibleResults (validate : DocValidate) (domains : List ValidationDomain) :
    List BatchValidationResult :=
  domains.flatMap (fun dom =>
    (dom.docPaths.filter (fun d => !skipDoc d)).map
      (resultFor validate dom.readmePath dom.type))

/-- Prefix of a result sequence up to and including its first non-compliant
error-severity entry. -/
def untilFirstError : List BatchValidationResult → List BatchValidationResult
  | [] => []
  | r :: rs => if isErrorResult r then [r] else r :: untilFirstError rs

theorem untilFirstError_append (l₁ l₂ : List BatchValidationResult) :
    untilFirstError (l₁ ++ l₂) =
      if l₁.any isErrorResult then untilFirstError l₁
      else l₁ ++ untilFirstError l₂ := by
  induction l₁ with
  | nil => simp [untilFirstError]
  | cons r rs ih =>
    show untilFirstError (r :: (rs ++ l₂)) = _
    by_cases hr : isErrorResult r = true
    · have h1 : untilFirstError (r :: (rs ++ l₂)) = [r] := by
        rw [untilFirstError, if_pos hr]
      have h2 : untilFirstError (r :: rs) = [r] := by
        rw [untilFirstError, if_pos hr]
      have h3 : (r :: rs).any isErrorResult = true := by simp [hr]
      rw [h1, if_pos h3, h2]
    · have h1 : untilFirstError (r :: (rs ++ l₂)) = r :: untilFirstError (rs ++ l₂) := by
        rw [untilFirstError, if_neg hr]
      have h2 : untilFirstError (r :: rs) = r :: untilFirstError rs := by
        rw [untilFirstError, if_neg hr]
      by_cases hrs : rs.any isErrorResult = true
      · have h3 : (r :: rs).any isErrorResult = true := by simp [hrs]
        rw [h1, ih, if_pos hrs, if_pos h3, h2]
      · have h3 : ¬ ((r :: rs).any isErrorResult = true) := by
          simp only [List.any_cons, Bool.or_eq_true]
          intro hc
          rcases hc with hc | hc
          · exact hr hc
          · exact hrs hc
        rw [h1, ih, if_neg hrs, if_neg h3, List.cons_append]

theorem untilFirstError_of_no_error (l : List BatchValidationResult)
    (h : ¬ (l.any isErrorResult = true)) : untilFirstError l = l := by
  induction l with
  | nil => rfl
  | cons r rs ih =>
    have hr : ¬ (isErrorResult r = true) := fun hc => h (by simp [hc])
    have hrs : ¬ (rs.any isErrorResult = true) := fun hc => h (by simp [hc])
    rw [untilFirstError, if_neg hr, ih hrs]

theorem runDocs_stopped (failFast : Bool) (validate : DocValidate)
    (sp ty : String) (ds : List String) (st : BatchState)
    (h : st.stoppedEarly = true) :
    runDocs failFast validate sp ty ds st = st := by
  cases ds <;> simp [runDocs, h]

theorem validateAllLoop_stopped (failFast : Bool) (validate : DocValidate)
    (domains : List ValidationDomain) (st : BatchState)
    (h : st.stoppedEarly = true) :
    validateAllLoop failFast validate domains st = st := by
  cases domains <;> simp [validateAllLoop, h]

theorem checkFailFast_false (st : BatchState) : checkFailFast false st = st := by
  simp [checkFailFast]

theorem validateDocument_results (validate : DocValidate) (st : BatchState)
    (d sp ty : String) :
    (validateDocument validate st d sp ty).results =
      st.results ++ [resultFor validate sp ty d] := by
  unfold validateDocument resultFor
  rcases h : validate d sp with msg | ⟨r, hit⟩ <;> simp

theorem validateDocument_stoppedEarly (validate : DocValidate) (st : BatchState)
    (d sp ty : String) :
    (validateDocument validate st d sp ty).stoppedEarly = st.stoppedEarly := by
  unfold validateDocument
  rcases h : validate d sp with msg | ⟨r, hit⟩ <;> simp

theorem checkFailFast_true_concat (st : BatchState) (rs : List BatchValidationResult)
    (r : BatchValidationResult) (h : st.results = rs ++ [r]) :
    checkFailFast true st =
      if isErrorResult r then { st with stoppedEarly := true } else st := by
  unfold checkFailFast isErrorResult
  rw [h, List.getLast?_concat]
  simp

theorem runDocs_characterization (validate : DocValidate) (sp ty : String)
    (ds : List String) (st : BatchState) (h : st.stoppedEarly = false) :
    (runDocs true validate sp ty ds st).results =
      st.results ++
        untilFirstError ((ds.filter (fun d => !skipDoc d)).map (resultFor validate sp ty))
    ∧ (runDocs true validate sp ty ds st).stoppedEarly =
        ((ds.filter (fun d => !skipDoc d)).map (resultFor validate sp ty)).any
          isErrorResult := by
  induction ds generalizing st with
  | nil => simp [runDocs, h, untilFirstError]
  | cons d ds ih =>
    have hhead0 : runDocs true validate sp ty (d :: ds) st =
        (if skipDoc d then runDocs true validate sp ty ds st
         else runDocs true validate sp ty ds
           (checkFailFast true (validateDocument validate st d sp ty))) := by
      simp only [runDocs, h]
      rw [if_neg (by simp)]
    by_cases hskip : skipDoc d = true
    · rw [hhead0, if_pos hskip]
      have := ih st h
      simpa [List.filter_cons, hskip] using this
    · rw [hhead0, if_neg hskip]
      have hskip' : skipDoc d = false := by
        cases hsd : skipDoc d
        · rfl
        · exact absurd hsd hskip
      have hres := validateDocument_results validate st d sp ty
      have hstop : (validateDocument validate st d sp ty).stoppedEarly = false := by
        rw [validateDocument_stoppedEarly, h]
      have hcf := checkFailFast_true_concat (validateDocument validate st d sp ty)
        st.results (resultFor validate sp ty d) hres
      cases hbad : isErrorResult (resultFor validate sp ty d) with
      | true =>
        rw [hcf, if_pos hbad]
        rw [runDocs_stopped true validate sp ty ds _ rfl]
        constructor
        · show (validateDocument validate st d sp ty).results = _
          rw [hres]
          simp [List.filter_cons, hskip', untilFirstError, hbad]
        · show true = _
          simp [List.filter_cons, hskip', hbad]
      | false =>
        rw [hcf, if_neg (by simp [hbad])]
        have hnext := ih (validateDocument validate st d sp ty) hstop
        constructor
        · rw [hnext.1, hres]
          simp [List.filter_cons, hskip', untilFirstError, hbad, List.append_assoc]
        · rw [hnext.2]
          simp [List.filter_cons, hskip', hbad]

theorem validateAllLoop_characterization (validate : DocValidate)
    (domains : List ValidationDomain) (st : BatchState)
    (h : st.stoppedEarly = false) :
    (validateAllLoop true validate domains st).results =
      st.results ++ untilFirstError (eligibleResults validate domains)
    ∧ (validateAllLoop true validate domains st).stoppedEarly =
        (eligibleResults validate domains).any isErrorResult := by
  induction domains generalizing st with
  | nil => simp [validateAllLoop, eligibleResults, untilFirstError, h]
  | cons dom rest ih =>
    have hrun := runDocs_characterization validate dom.readmePath dom.type
      dom.docPaths st h
    have hhead : validateAllLoop true validate (dom :: rest) st =
        validateAllLoop true validate rest
          (runDocs true validate dom.readmePath dom.type dom.docPaths st) := by
      rw [validateAllLoop, if_neg (by rw [h]; simp)]
    have helig : eligibleResults validate (dom :: rest) =
        ((dom.docPaths.filter (fun d => !skipDoc d)).map
          (resultFor validate dom.readmePath dom.type)) ++ eligibleResults validate rest := by
      rw [eligibleResults, List.flatMap_cons]
      rfl
    by_cases hany : ((dom.docPaths.filter (fun d => !skipDoc d)).map
        (resultFor validate dom.readmePath dom.type)).any isErrorResult = true
    · have hstop1 : (runDocs true validate dom.readmePath dom.type dom.docPaths
          st).stoppedEarly = true := by rw [hrun.2, hany]
      have hfrozen := validateAllLoop_stopped true validate rest _ hstop1
      constructor
      · rw [hhead, hfrozen, hrun.1, helig, untilFirstError_append, if_pos hany]
      · rw [hhead, hfrozen, hstop1, helig, List.any_append, hany, Bool.true_or]
    · have hstop1 : (runDocs true validate dom.readmePath dom.type dom.docPaths
          st).stoppedEarly = false := by
        rw [hrun.2]
        cases hval : ((dom.docPaths.filter (fun d => !skipDoc d)).map
            (resultFor validate dom.readmePath dom.type)).any isErrorResult
        · rfl
        · exact absurd hval hany
      have hih := ih (runDocs true validate dom.readmePath dom.type dom.docPaths st) hstop1
      constructor
      · rw [hhead, hih.1, hrun.1, helig, untilFirstError_append, if_neg hany,
          untilFirstError_of_no_error _ hany, List.append_assoc]
      · rw [hhead, hih.2, helig, List.any_append]
        cases hval : ((dom.docPaths.filter (fun d => !skipDoc d)).map
            (resultFor validate dom.readmePath dom.type)).any isErrorResult
        · rw [Bool.false_or]
        · exact absurd hval hany

/-- C4 — Fail-fast never triggers on a warning: with fail-fast enabled the
recorded results are exactly the eligible per-document results cut at (and
including) the first non-compliant error-severity result, and the
stopped-early flag is set precisely when such an error-severity result
occurs — a non-compliant warning (or a result with no severity) never sets
it. -/
theorem batch_failFast_stops_on_first_error (validate : DocValidate)
    (domains : List ValidationDomain) :
    (validateAllRun true validate domains).results =
      untilFirstError (eligibleResults validate domains)
    ∧ (validateAllRun true validate domains).stoppedEarly =
        (eligibleResults validate domains).any isErrorResult := by
  have := validateAllLoop_characterization validate domains initialBatchState rfl
  simpa [validateAllRun, initialBatchState] using this

theorem runDocs_noFailFast (validate : DocValidate) (sp ty : String)
    (ds : List String) (st : BatchState) (h : st.stoppedEarly = false) :
    (runDocs false validate sp ty ds st).results =
      st.results ++ (ds.filter (fun d => !skipDoc d)).map (resultFor validate sp ty)
    ∧ (runDocs false validate sp ty ds st).stoppedEarly = false := by
  induction ds generalizing st with
  | nil => simp [runDocs, h]
  | cons d ds ih =>
    have hhead0 : runDocs false validate sp ty (d :: ds) st =
        (if skipDoc d then runDocs false validate sp ty ds st
         else runDocs false validate sp ty ds
           (checkFailFast false (validateDocument validate st d sp ty))) := by
      simp only [runDocs, h]
      rw [if_neg (by simp)]
    by_cases hskip : skipDoc d = true
    · rw [hhead0, if_pos hskip]
      have := ih st h
      simpa [List.filter_cons, hskip] using this
    · have hskip' : skipDoc d = false := by
        cases hsd : skipDoc d
        · rfl
        · exact absurd hsd hskip
      rw [hhead0, if_neg hskip, checkFailFast_false]
      have hstop : (validateDocument validate st d sp ty).stoppedEarly = false := by
        rw [validateDocument_stoppedEarly, h]
      have hnext := ih (validateDocument validate st d sp ty) hstop
      constructor
      · rw [hnext.1, validateDocument_results]
        simp [List.filter_cons, hskip', List.append_assoc]
      · exact hnext.2

theorem validateAllLoop_noFailFast (validate : DocValidate)
    (domains : List ValidationDomain) (st : BatchState)
    (h : st.stoppedEarly = false) :
    (validateAllLoop false validate domains st).results =
      st.results ++ eligibleResults validate domains
    ∧ (validateAllLoop false validate domains st).stoppedEarly = false := by
  induction domains generalizing st with
  | nil => simp [validateAllLoop, eligibleResults, h]
  | cons dom rest ih =>
    have hrun := runDocs_noFailFast validate dom.readmePath dom.type dom.docPaths st h
    have hhead : validateAllLoop false validate (dom :: rest) st =
        validateAllLoop false validate rest
          (runDocs false validate dom.readmePath dom.type dom.docPaths st) := by
      rw [validateAllLoop, if_neg (by rw [h]; simp)]
    have helig : eligibleResults validate (dom :: rest) =
        ((dom.docPaths.filter (fun d => !skipDoc d)).map
          (resultFor validate dom.readmePath dom.type)) ++ eligibleResults validate rest := by
      rw [eligibleResults, List.flatMap_cons]
      rfl
    have hih := ih (runDocs false validate dom.readmePath dom.type dom.docPaths st) hrun.2
    constructor
    · rw [hhead, hih.1, hrun.1, List.append_assoc, helig]
    · rw [hhead, hih.2]

/-- Abstract validator for the fail-fast/throw scenarios: the classifier call
throws on the first document and returns a compliant verdict on any other. -/
def cexValidate : DocValidate := fun d _ =>
  if d = "content/roles/a.md" then .error "classifier down"
  else .ok ({ compliant := true, issues := [], reason := "ok", severity := none }, false)

/-- A single discovered domain with two documents, the first of which makes
the classifier throw. -/
def cexDomain : ValidationDomain :=
  { dir := "content/roles", readmePath := "content/roles/README.md", type := "roles",
    docPaths := ["content/roles/a.md", "content/roles/b.md"] }

/-- Domain list for the fail-fast/throw scenarios. -/
def cexDomains : List ValidationDomain := [cexDomain]

/-- C5 counterexample — with fail-fast enabled, a document whose validation
throws does not let the batch continue: the synthetic error result trips
fail-fast, and the second document is never validated, contradicting "the
batch continues to the remaining documents". -/
theorem batch_throw_stops_batch_under_failFast :
    (validateAllRun true cexValidate cexDomains).results.map (fun r => r.path) =
      ["content/roles/a.md"]
    ∧ (validateAllRun true cexValidate cexDomains).stoppedEarly = true := by
  decide

/-- C5 (amended) — a document validation throw is caught and recorded as a
synthetic non-compliant error-severity result for that document, and when
fail-fast is disabled the batch processes every remaining eligible document
(the results are exactly the per-document results of all eligible
documents); under fail-fast the synthetic error result stops the batch like
any other error result. -/
theorem batch_throw_recorded_and_continues (validate : DocValidate)
    (domains : List ValidationDomain) (dom : ValidationDomain) (d msg : String)
    (hdom : dom ∈ domains) (hd : d ∈ dom.docPaths) (hskip : skipDoc d = false)
    (herr : validate d dom.readmePath = .error msg) :
    (validateAllRun false validate domains).results = eligibleResults validate domains
    ∧ (validateAllRun false validate domains).stoppedEarly = false
    ∧ mkSyntheticResult d dom.type msg ∈ (validateAllRun false validate domains).results
    ∧ (mkSyntheticResult d dom.type msg).compliant = false
    ∧ (mkSyntheticResult d dom.type msg).severity = some .error := by
  have hchar := validateAllLoop_noFailFast validate domains initialBatchState rfl
  have hres : (validateAllRun false validate domains).results =
      eligibleResults validate domains := by
    have := hchar.1
    simpa [validateAllRun, initialBatchState] using this
  refine ⟨hres, ?_, ?_, rfl, rfl⟩
  · have := hchar.2
    simpa [validateAllRun, initialBatchState] using this
  · rw [hres]
    have hsyn : mkSyntheticResult d dom.type msg = resultFor validate dom.readmePath dom.type d := by
      rw [resultFor, herr]
    rw [hsyn]
    refine List.mem_flatMap.mpr ⟨dom, hdom, ?_⟩
    refine List.mem_map.mpr ⟨d, ?_, rfl⟩
    refine List.mem_filter.mpr ⟨hd, ?_⟩
    rw [hskip]
    rfl

/-- C5 witness — the amended theorem applied to the concrete throwing
scenario with fail-fast disabled. -/
theorem batch_throw_recorded_and_continues_witness :
    (validateAllRun false cexValidate cexDomains).results =
      eligibleResults cexValidate cexDomains
    ∧ (validateAllRun false cexValidate cexDomains).stoppedEarly = false
    ∧ mkSyntheticResult "content/roles/a.md" cexDomain.type "classifier down" ∈
        (validateAllRun false cexValidate cexDomains).results
    ∧ (mkSyntheticResult "content/roles/a.md" cexDomain.type "classifier down").compliant = false
    ∧ (mkSyntheticResult "content/roles/a.md" cexDomain.type "classifier down").severity =
        some .error :=
  batch_throw_recorded_and_continues cexValidate cexDomains cexDomain
    "content/roles/a.md" "classifier down" (by decide) (by decide) (by decide) (by rfl)

/-! ## Validation cache (`src/validator/cache-manager.ts`) -/

/-- Cache format version (`CACHE_VERSION`). -/
def CACHE_VERSION : String := "1.0"

/-- Full cache file structure written to disk (`CacheFileData`); the nested
`document` object is flattened into the three `doc*`/`specPath` fields. -/
structure CacheFileData where
  version : String
  cached_at : String
  content_hash : String
  docPath : String
  docType : String
  specPath : String
  result : CachedValidationResult
deriving DecidableEq

/-- Content of one file in the cache directory: either structurally valid
JSON of the cache schema, or bytes that `JSON.parse` rejects. -/
inductive StoredFile where
  | valid (data : CacheFileData)
  | corrupt (bytes : String)
deriving DecidableEq

/-- The cache directory as explicit state: an association list from cache
file path to stored content (later bindings shadow earlier ones). -/
def CacheFS : Type := List (String × StoredFile)

/-- Read a file from the cache directory (`existsSync` + `readFileSync`). -/
def fsLookup : CacheFS → String → Option StoredFile
  | [], _ => none
  | (k, v) :: rest, key => if k = key then some v else fsLookup rest key

/-- Overwrite a file (`writeFileSync`): the new binding shadows any old one. -/
def fsInsert (fs : CacheFS) (key : String) (v : StoredFile) : CacheFS :=
  (key, v) :: fs

/-- Delete a file (`unlinkSync`): drop every binding for the path. -/
def fsErase (fs : CacheFS) (key : String) : CacheFS :=
  fs.filter (fun kv => kv.1 ≠ key)

/-- Characters removed by `sanitizeText`'s first regex:
`[\x00-\x08\x0B\x0C\x0E-\x1F\x7F]` (newline, carriage return and tab are
deliberately kept). -/
def strippedControl (c : Char) : Bool :=
  c.toNat ≤ 8 || c.toNat == 11 || c.toNat == 12 ||
    (14 ≤ c.toNat && c.toNat ≤ 31) || c.toNat == 127

/-- `sanitizeText`: strip the control characters, then replace every double
quote with a single quote. -/
def sanitizeText (s : String) : String :=
  ⟨(s.data.filter (fun c => !strippedControl c)).map
    (fun c => if c = '"' then '\'' else c)⟩

/-- The sanitization `CacheManager.write` applies to the verdict before
serialization: `reason` and every issue string pass through `sanitizeText`;
`compliant` and `severity` are untouched. -/
def sanitizeResult (r : CachedValidationResult) : CachedValidationResult :=
  { r with reason := sanitizeText r.reason, issues := r.issues.map sanitizeText }

/-- `CacheManager.cachePathFor`: strip the project root (when set) from the
document path, then rebuild it under the cache root with the `.md`
extension swapped for `.json`. -/
def cachePathFor (cacheRoot : String) (projectRoot : Option String)
    (documentPath : String) : String :=
  let relativePath :=
    match projectRoot with
    | some root =>
      let absRoot := if root.data.getLast? = some '/' then root else root ++ "/"
      if jsStartsWith documentPath absRoot then
        sliceFrom documentPath absRoot.data.length
      else documentPath
    | none => documentPath
  jsJoin [cacheRoot, jsDirname relativePath, jsBasenameExt relativePath ".md" ++ ".json"]

/-- `CacheManager.write`: sanitize the verdict, assemble the cache record and
overwrite the cache file. The `JSON.stringify`/`JSON.parse` integrity
round-trip always succeeds on this finite acyclic record, so the `catch`
cleanup branch is unreachable in the model. -/
def cacheWrite (fs : CacheFS) (cacheRoot : String) (projectRoot : Option String)
    (documentPath contentHash : String) (result : CachedValidationResult)
    (documentType specPath now : String) : CacheFS :=
  fsInsert fs (cachePathFor cacheRoot projectRoot documentPath)
    (StoredFile.valid
      { version := CACHE_VERSION, cached_at := now, content_hash := contentHash,
        docPath := documentPath, docType := documentType, specPath := specPath,
        result := sanitizeResult result })

/-- `CacheManager.read`: absent file, version mismatch and hash mismatch give
`none` without touching the store; an unparseable file is deleted
(self-healing) and gives `none`; otherwise the stored verdict is returned. -/
def cacheRead (fs : CacheFS) (cacheRoot : String) (projectRoot : Option String)
    (documentPath contentHash : String) : CacheFS × Option CachedValidationResult :=
  match fsLookup fs (cachePathFor cacheRoot projectRoot documentPath) with
  | none => (fs, none)
  | some (StoredFile.corrupt _) =>
    (fsErase fs (cachePathFor cacheRoot projectRoot documentPath), none)
  | some (StoredFile.valid data) =>
    if data.version ≠ CACHE_VERSION then (fs, none)
    else if data.content_hash ≠ contentHash then (fs, none)
    else (fs, some data.result)

/-- `CacheManager.readRaw`: no hash check; version mismatch, absence and
corruption give `none`, and the store is never modified (read-only). -/
def cacheReadRaw (fs : CacheFS) (cacheRoot : String) (projectRoot : Option String)
    (documentPath : String) : CacheFS × Option CacheFileData :=
  match fsLookup fs (cachePathFor cacheRoot projectRoot documentPath) with
  | none => (fs, none)
  | some (StoredFile.corrupt _) => (fs, none)
  | some (StoredFile.valid data) =>
    if data.version ≠ CACHE_VERSION then (fs, none)
    else (fs, some data)

/-- Verdict whose free text contains a double quote, used to exhibit the
sanitization in the round-trip. -/
def cexResult : CachedValidationResult :=
  { compliant := true, issues := [], reason := "say \"hi\"", severity := none }

/-- C1 counterexample — the cache round-trip is not the identity on the
verdict: writing a result whose rationale contains a double quote and
reading it back under the same fingerprint returns the sanitized verdict
(quotes normalized to apostrophes), not a value equal to the original. -/
theorem cache_roundtrip_not_identity :
    (cacheRead
        (cacheWrite [] ".praxis/cache/validation" none "roles/dev.md" "abcd1234"
          cexResult "roles" "roles/README.md" "2024-01-01T00:00:00Z")
        ".praxis/cache/validation" none "roles/dev.md" "abcd1234").2 ≠ some cexResult := by
  decide

/-- C1 (amended) — cache round-trip up to sanitization: `write(p, fp, r)`
followed by `read(p, fp)` returns the sanitized verdict, which equals `r`
exactly when `r`'s free-text fields are already free of control characters
and double quotes; `read(p, fp')` for any `fp' ≠ fp` returns absent. -/
theorem cache_roundtrip (fs : CacheFS) (cacheRoot : String)
    (projectRoot : Option String) (p fp fp' dt sp now : String)
    (r : CachedValidationResult) (h : fp' ≠ fp) :
    (cacheRead (cacheWrite fs cacheRoot projectRoot p fp r dt sp now)
        cacheRoot projectRoot p fp).2 = some (sanitizeResult r)
    ∧ (sanitizeResult r = r →
        (cacheRead (cacheWrite fs cacheRoot projectRoot p fp r dt sp now)
          cacheRoot projectRoot p fp).2 = some r)
    ∧ (cacheRead (cacheWrite fs cacheRoot projectRoot p fp r dt sp now)
        cacheRoot projectRoot p fp').2 = none := by
  have hfp' : fp ≠ fp' := Ne.symm h
  have hlook : fsLookup (cacheWrite fs cacheRoot projectRoot p fp r dt sp now)
      (cachePathFor cacheRoot projectRoot p) =
      some (StoredFile.valid
        { version := CACHE_VERSION, cached_at := now, content_hash := fp,
          docPath := p, docType := dt, specPath := sp,
          result := sanitizeResult r }) := by
    simp [cacheWrite, fsInsert, fsLookup]
  refine ⟨?_, ?_, ?_⟩
  · simp [cacheRead, hlook]
  · intro hs
    simp [cacheRead, hlook, hs]
  · simp [cacheRead, hlook, hfp']

/-- C1 witness — the amended round-trip at a concrete store, document,
fingerprints and verdict. -/
theorem cache_roundtrip_witness :
    (cacheRead (cacheWrite [] ".praxis" none "roles/dev.md" "abcd1234"
        cexResult "roles" "roles/README.md" "t0") ".praxis" none "roles/dev.md"
        "abcd1234").2 = some (sanitizeResult cexResult)
    ∧ (cacheRead (cacheWrite [] ".praxis" none "roles/dev.md" "abcd1234"
        cexResult "roles" "roles/README.md" "t0") ".praxis" none "roles/dev.md"
        "ffff0000").2 = none :=
  ⟨(cache_roundtrip [] ".praxis" none "roles/dev.md" "abcd1234" "ffff0000"
    "roles" "roles/README.md" "t0" cexResult (by decide)).1,
   (cache_roundtrip [] ".praxis" none "roles/dev.md" "abcd1234" "ffff0000"
    "roles" "roles/README.md" "t0" cexResult (by decide)).2.2⟩

/-- C3 — Corruption recovery: when the cache path of a document holds bytes
that do not parse as JSON, the fingerprint-checked read returns absent and
deletes the file, while the raw read returns absent and leaves the store
unchanged. -/
theorem cache_corrupt_read_self_heals (fs : CacheFS) (cacheRoot : String)
    (projectRoot : Option String) (p fp bytes : String)
    (h : fsLookup fs (cachePathFor cacheRoot projectRoot p) =
      some (StoredFile.corrupt bytes)) :
    cacheRead fs cacheRoot projectRoot p fp =
      (fsErase fs (cachePathFor cacheRoot projectRoot p), none)
    ∧ cacheReadRaw fs cacheRoot projectRoot p = (fs, none) := by
  constructor
  · simp only [cacheRead, h]
  · simp only [cacheReadRaw, h]

/-- C3 witness — corruption recovery on a concrete one-file cache store. -/
theorem cache_corrupt_read_self_heals_witness :
    cacheRead [(cachePathFor ".praxis" none "roles/dev.md", StoredFile.corrupt "not json")]
        ".praxis" none "roles/dev.md" "abcd1234" =
      (fsErase [(cachePathFor ".praxis" none "roles/dev.md", StoredFile.corrupt "not json")]
        (cachePathFor ".praxis" none "roles/dev.md"), none)
    ∧ cacheReadRaw [(cachePathFor ".praxis" none "roles/dev.md", StoredFile.corrupt "not json")]
        ".praxis" none "roles/dev.md" =
      ([(cachePathFor ".praxis" none "roles/dev.md", StoredFile.corrupt "not json")], none) :=
  cache_corrupt_read_self_heals
    [(cachePathFor ".praxis" none "roles/dev.md", StoredFile.corrupt "not json")]
    ".praxis" none "roles/dev.md" "abcd1234" "not json" (by decide)

/-! ## Frontmatter and Markdown (`src/compiler/frontmatter.ts`, `src/compiler/markdown.ts`) -/

/-- `Markdown.hasFrontmatter` / the opening-marker test of
`Frontmatter.extractRawYaml`: the content starts with the delimiter line. -/
def hasFrontmatter (content : String) : Bool :=
  jsStartsWith content "---\n"

/-- `Markdown.bodyRaw`: body preserving whitespace. With frontmatter, skip to
after the closing delimiter (`endIndex + DELIMITER.length + 2`); with an
unterminated header (`indexOf` returns `-1`), the whole content. -/
def bodyRaw (content : String) : String :=
  if !hasFrontmatter content then content
  else
    match findIdxFrom content.data "\n---".data 3 with
    | none => content
    | some endIndex => sliceFrom content (endIndex + 5)

/-- `Frontmatter.extractRawYaml`: the text strictly between the delimiters
(`slice(DELIMITER.length + 1, endIndex)`), or `""` when the content does
not open with the marker or the closing marker is missing. -/
def extractRawYaml (content : String) : String :=
  if !jsStartsWith content "---\n" then ""
  else
    match findIdxFrom content.data "\n---".data 3 with
    | none => ""
    | some endIndex => sliceRange content 4 endIndex

/-- `Frontmatter.extractAndParse`, with js-yaml's `load` as an explicit
parameter: `load` may return a parse (possibly `undefined`/`null`, mapped to
the empty manifest by `?? {}`) or throw; the body contains no try/catch, so
a thrown error propagates. -/
def extractAndParse {α : Type} (emptyManifest : α)
    (yamlLoad : String → Except String (Option α)) (content : String) :
    Except String α :=
  if extractRawYaml content = "" then .ok emptyManifest
  else (yamlLoad (extractRawYaml content)).map (fun p => p.getD emptyManifest)

theorem findIdxAux_eq_none (pat : List Char) :
    ∀ (l : List Char) (i : Nat),
      (∀ j, ¬ (pat.isPrefixOf (l.drop j) = true)) →
      findIdxAux pat l i = none := by
  intro l
  induction l with
  | nil =>
    intro i h
    unfold findIdxAux
    rw [if_neg (by simpa using h 0)]
  | cons c rest ih =>
    intro i h
    unfold findIdxAux
    rw [if_neg (by simpa using h 0)]
    exact ih (i + 1) (fun j => by simpa using h (j + 1))

theorem findIdxFrom_eq_none (s pat : List Char) (i : Nat)
    (h : ∀ j, i ≤ j → ¬ (pat.isPrefixOf (s.drop j) = true)) :
    findIdxFrom s pat i = none := by
  unfold findIdxFrom
  refine findIdxAux_eq_none pat (s.drop i) i (fun j => ?_)
  rw [List.drop_drop]
  exact h (i + j) (Nat.le_add_right i j)

/-- A yaml loader behaviour consistent with js-yaml on malformed input such
as `"key: ["`: `load` throws a `YAMLException` instead of returning. -/
def failingYamlLoad : String → Except String (Option (List (String × String))) :=
  fun _ => .error "YAMLException: unexpected end of the stream"

/-- C10 — Unterminated header: when the text opens with the marker line but
no newline-plus-marker occurs at any later position, `Markdown.bodyRaw`
returns the entire original content (opening marker included) and
`Frontmatter`'s extract-and-parse yields the empty manifest for every
possible yaml loader. -/
theorem unterminated_header_whole_body (content : String)
    (hopen : jsStartsWith content "---\n" = true)
    (hnone : ∀ i, i < content.data.length → 3 ≤ i →
      "\n---".data.isPrefixOf (content.data.drop i) = false) :
    bodyRaw content = content
    ∧ ∀ (α : Type) (emptyManifest : α)
        (yamlLoad : String → Except String (Option α)),
        extractAndParse emptyManifest yamlLoad content = .ok emptyManifest := by
  have hfull : ∀ j, 3 ≤ j →
      ¬ ("\n---".data.isPrefixOf (content.data.drop j) = true) := by
    intro j hj
    by_cases hlt : j < content.data.length
    · rw [hnone j hlt hj]
      simp
    · have hdrop : content.data.drop j = [] :=
        List.drop_eq_nil_of_le (by omega)
      rw [hdrop]
      simp [List.isPrefixOf]
  have hfind : findIdxFrom content.data "\n---".data 3 = none :=
    findIdxFrom_eq_none content.data "\n---".data 3 hfull
  constructor
  · rw [bodyRaw, hasFrontmatter, hopen]
    simp only [Bool.not_true, Bool.false_eq_true, if_false]
    rw [hfind]
  · intro α emptyManifest yamlLoad
    have hraw : extractRawYaml content = "" := by
      rw [extractRawYaml, hopen]
      simp only [Bool.not_true, Bool.false_eq_true, if_false]
      rw [hfind]
    rw [extractAndParse, if_pos hraw]

/-- C10 witness — a concrete document whose header never closes. -/
theorem unterminated_header_whole_body_witness :
    bodyRaw "---\ntitle: Sample" = "---\ntitle: Sample"
    ∧ extractAndParse ([] : List (String × String)) failingYamlLoad
        "---\ntitle: Sample" = .ok [] :=
  ⟨(unterminated_header_whole_body "---\ntitle: Sample" (by decide) (by decide)).1,
   (unterminated_header_whole_body "---\ntitle: Sample" (by decide) (by decide)).2
     (List (String × String)) [] failingYamlLoad⟩

/-- C2 counterexample — a malformed header payload does not degrade to an
empty manifest: `extractAndParse` has no try/catch around the yaml load, so
with a loader that throws on the malformed payload `"key: ["` the error
propagates to the caller instead of yielding the empty manifest. -/
theorem frontmatter_malformed_yaml_raises :
    extractAndParse ([] : List (String × String)) failingYamlLoad
      "---\nkey: [\n---\n" =
      .error "YAMLException: unexpected end of the stream" := by
  rfl

/-- C2 (amended) — if the text does not open with the frontmatter marker
line, parsing never consults the yaml loader and no error can arise: the
manifest is empty and the whole text is the body. (A present but malformed
header payload, by contrast, propagates the yaml loader's exception.) -/
theorem frontmatter_no_marker_empty_manifest (content : String)
    (h : jsStartsWith content "---\n" = false) :
    bodyRaw content = content
    ∧ ∀ (α : Type) (emptyManifest : α)
        (yamlLoad : String → Except String (Option α)),
        extractAndParse emptyManifest yamlLoad content = .ok emptyManifest := by
  constructor
  · rw [bodyRaw, hasFrontmatter, h]
    simp
  · intro α emptyManifest yamlLoad
    have hraw : extractRawYaml content = "" := by
      rw [extractRawYaml, h]
      simp
    rw [extractAndParse, if_pos hraw]

/-- C2 witness — the no-marker case at a concrete document, evaluated with
the erroring loader to show the loader is never consulted. -/
theorem frontmatter_no_marker_empty_manifest_witness :
    bodyRaw "Review PRs." = "Review PRs."
    ∧ extractAndParse ([] : List (String × String)) failingYamlLoad "Review PRs." =
        .ok [] :=
  ⟨(frontmatter_no_marker_empty_manifest "Review PRs." (by decide)).1,
    (frontmatter_no_marker_empty_manifest "Review PRs." (by decide)).2
      (List (String × String)) [] failingYamlLoad⟩

/-! ## GlobExpander (`src/compiler/glob-expander.ts`) -/

/-- `GlobExpander.isGlob`: purely syntactic wildcard detection. -/
def isGlob (pattern : String) : Bool :=
  pattern.data.contains '*' || pattern.data.contains '?' || pattern.data.contains '['

/-- Files excluded from glob expansion results (`EXCLUDED_FILES`). -/
def EXCLUDED_FILES : List String := ["_template.md", "README.md"]

/-- `GlobExpander.isExcluded`: the path's basename is one of the excluded
filenames. -/
def isExcluded (filePath : String) : Bool :=
  EXCLUDED_FILES.contains (plainBase filePath)

/-- Lexicographic comparison of character lists by code unit, the default
comparison of JS `Array.prototype.sort` on strings. -/
def lexLe : List Char → List Char → Bool
  | [], _ => true
  | _ :: _, [] => false
  | a :: as, b :: bs =>
    if a.toNat < b.toNat then true
    else if b.toNat < a.toNat then false
    else lexLe as bs

/-- String comparison used by the `.sort()` call. -/
def jsStrLe (a b : String) : Bool := lexLe a.data b.data

/-- The comparison relation of the `.sort()` call, as a proposition. -/
def jsStrOrder (a b : String) : Prop := jsStrLe a b = true

instance : DecidableRel jsStrOrder := fun a b => instDecidableEqBool (jsStrLe a b) true

/-- `GlobExpander.expand`, with fast-glob's match list as a parameter: a
non-wildcard pattern resolves to itself; a wildcard pattern yields the
matches with excluded filenames dropped, sorted (JS `Array.prototype.sort`
returns the sorted permutation; on strings any comparison sort yields the
same list). -/
def expand (fgMatches : List String) (pattern : String) : List String :=
  if !isGlob pattern then [pattern]
  else List.insertionSort jsStrOrder (fgMatches.filter (fun m => !isExcluded m))

theorem lexLe_total (a b : List Char) : lexLe a b = true ∨ lexLe b a = true := by
  induction a generalizing b with
  | nil => left; rfl
  | cons x xs ih =>
    cases b with
    | nil => right; rfl
    | cons y ys =>
      by_cases hxy : x.toNat < y.toNat
      · left; simp [lexLe, hxy]
      · by_cases hyx : y.toNat < x.toNat
        · right; simp [lexLe, hyx]
        · rcases ih ys with h | h
          · left; simp [lexLe, hxy, hyx, h]
          · right; simp [lexLe, hyx, hxy, h]

theorem lexLe_trans (a b c : List Char) (hab : lexLe a b = true)
    (hbc : lexLe b c = true) : lexLe a c = true := by
  induction a generalizing b c with
  | nil => rfl
  | cons x xs ih =>
    cases b with
    | nil => simp [lexLe] at hab
    | cons y ys =>
      cases c with
      | nil => simp [lexLe] at hbc
      | cons z zs =>
        rw [lexLe] at hab hbc ⊢
        by_cases hxy : x.toNat < y.toNat
        · by_cases hyz : y.toNat < z.toNat
          · rw [if_pos (Nat.lt_trans hxy hyz)]
          · rw [if_neg hyz] at hbc
            by_cases hzy : z.toNat < y.toNat
            · rw [if_pos hzy] at hbc
              exact absurd hbc (by simp)
            · have hxz : x.toNat < z.toNat := by omega
              rw [if_pos hxz]
        · rw [if_neg hxy] at hab
          by_cases hyx : y.toNat < x.toNat
          · rw [if_pos hyx] at hab
            exact absurd hab (by simp)
          · rw [if_neg hyx] at hab
            by_cases hyz : y.toNat < z.toNat
            · have hxz : x.toNat < z.toNat := by omega
              rw [if_pos hxz]
            · rw [if_neg hyz] at hbc
              by_cases hzy : z.toNat < y.toNat
              · rw [if_pos hzy] at hbc
                exact absurd hbc (by simp)
              · rw [if_neg hzy] at hbc
                have hxz : ¬ x.toNat < z.toNat := by omega
                have hzx : ¬ z.toNat < x.toNat := by omega
                rw [if_neg hxz, if_neg hzx]
                exact ih ys zs hab hbc

theorem jsStrLe_trans (a b c : String) (hab : jsStrLe a b = true)
    (hbc : jsStrLe b c = true) : jsStrLe a c = true :=
  lexLe_trans a.data b.data c.data hab hbc

theorem jsStrLe_total (a b : String) : (jsStrLe a b || jsStrLe b a) = true := by
  rcases lexLe_total a.data b.data with h | h <;> simp [jsStrLe, h]

instance : IsTotal String jsStrOrder :=
  ⟨fun a b => by
    rcases lexLe_total a.data b.data with h | h
    · exact Or.inl h
    · exact Or.inr h⟩

instance : IsTrans String jsStrOrder :=
  ⟨fun a b c hab hbc => jsStrLe_trans a b c hab hbc⟩

/-- C7 — Wildcard expansion: for every wildcard pattern and every match list
fast-glob may return, the expansion is sorted by the code-unit
lexicographic order and contains no file whose basename is `_template.md`
or `README.md`, regardless of directory depth or pattern specificity. -/
theorem glob_expand_sorted_and_excludes (fgMatches : List String) (pattern : String)
    (h : isGlob pattern = true) :
    List.Pairwise jsStrOrder (expand fgMatches pattern)
    ∧ ∀ f ∈ expand fgMatches pattern,
        plainBase f ≠ "_template.md" ∧ plainBase f ≠ "README.md" := by
  have hform : expand fgMatches pattern =
      List.insertionSort jsStrOrder (fgMatches.filter (fun m => !isExcluded m)) := by
    rw [expand, h]
    simp
  constructor
  · rw [hform]
    exact List.sorted_insertionSort jsStrOrder _
  · intro f hf
    rw [hform] at hf
    have hmem : f ∈ fgMatches.filter (fun m => !isExcluded m) :=
      (List.perm_insertionSort jsStrOrder _).mem_iff.mp hf
    have hexcl : isExcluded f = false := by
      have := (List.mem_filter.mp hmem).2
      simpa using this
    constructor
    · intro heq
      rw [isExcluded, heq] at hexcl
      simp [EXCLUDED_FILES] at hexcl
    · intro heq
      rw [isExcluded, heq] at hexcl
      simp [EXCLUDED_FILES] at hexcl

/-- C7 witness — a concrete wildcard expansion over a directory containing
both excluded filenames at two depths. -/
theorem glob_expand_sorted_and_excludes_witness :
    List.Pairwise jsStrOrder
      (expand ["content/roles/b.md", "content/roles/README.md",
        "content/roles/a.md", "content/roles/_template.md",
        "content/roles/sub/README.md"] "content/roles/**/*.md")
    ∧ (plainBase "content/roles/a.md" ≠ "_template.md"
        ∧ plainBase "content/roles/a.md" ≠ "README.md") :=
  ⟨(glob_expand_sorted_and_excludes
      ["content/roles/b.md", "content/roles/README.md", "content/roles/a.md",
        "content/roles/_template.md", "content/roles/sub/README.md"]
      "content/roles/**/*.md" (by decide)).1,
   (glob_expand_sorted_and_excludes
      ["content/roles/b.md", "content/roles/README.md", "content/roles/a.md",
        "content/roles/_template.md", "content/roles/sub/README.md"]
      "content/roles/**/*.md" (by decide)).2
     "content/roles/a.md" (by decide)⟩

/-! ## Segment lemmas for the path model (towards C9) -/

theorem stringExt (a b : String) (h : a.data = b.data) : a = b :=
  congrArg String.mk h

theorem splitSeg_slash_cons (cs : List Char) :
    splitSeg ('/' :: cs) = [] :: splitSeg cs := rfl

theorem splitSeg_cons_ne (c : Char) (cs : List Char) (h : c ≠ '/') (s : List Char)
    (tail : List (List Char)) (hrest : splitSeg cs = s :: tail) :
    splitSeg (c :: cs) = (c :: s) :: tail := by
  simp only [splitSeg]
  rw [if_neg h, hrest]

theorem joinSeg_cons_cons (s t : List Char) (ts : List (List Char)) :
    joinSeg (s :: t :: ts) = s ++ '/' :: joinSeg (t :: ts) := rfl

theorem splitSeg_ne_nil (l : List Char) : splitSeg l ≠ [] := by
  cases l with
  | nil => simp [splitSeg]
  | cons c cs =>
    by_cases hc : c = '/'
    · rw [hc, splitSeg_slash_cons]
      simp
    · cases hrest : splitSeg cs with
      | nil => exact absurd hrest (splitSeg_ne_nil cs)
      | cons s tail =>
        rw [splitSeg_cons_ne c cs hc s tail hrest]
        simp

theorem joinSeg_splitSeg (l : List Char) : joinSeg (splitSeg l) = l := by
  induction l with
  | nil => rfl
  | cons c cs ih =>
    by_cases hc : c = '/'
    · rw [hc, splitSeg_slash_cons]
      cases hrest : splitSeg cs with
      | nil => exact absurd hrest (splitSeg_ne_nil cs)
      | cons s tail =>
        rw [joinSeg_cons_cons]
        show [] ++ '/' :: joinSeg (s :: tail) = '/' :: cs
        rw [List.nil_append, ← hrest, ih]
    · cases hrest : splitSeg cs with
      | nil => exact absurd hrest (splitSeg_ne_nil cs)
      | cons s tail =>
        rw [splitSeg_cons_ne c cs hc s tail hrest]
        cases tail with
        | nil =>
          show c :: s = c :: cs
          have hj : joinSeg (splitSeg cs) = cs := ih
          rw [hrest] at hj
          have hs : s = cs := hj
          rw [hs]
        | cons t ts =>
          rw [joinSeg_cons_cons]
          have hj : joinSeg (splitSeg cs) = cs := ih
          rw [hrest, joinSeg_cons_cons] at hj
          show c :: (s ++ '/' :: joinSeg (t :: ts)) = c :: cs
          rw [hj]

theorem splitSeg_append_slash (a b : List Char) :
    splitSeg (a ++ '/' :: b) = splitSeg a ++ splitSeg b := by
  induction a with
  | nil =>
    show splitSeg ('/' :: b) = splitSeg [] ++ splitSeg b
    rw [splitSeg_slash_cons]
    rfl
  | cons c a' ih =>
    by_cases hc : c = '/'
    · show splitSeg (c :: (a' ++ '/' :: b)) = splitSeg (c :: a') ++ splitSeg b
      rw [hc, splitSeg_slash_cons, splitSeg_slash_cons, ih]
      rfl
    · show splitSeg (c :: (a' ++ '/' :: b)) = splitSeg (c :: a') ++ splitSeg b
      cases hrest : splitSeg a' with
      | nil => exact absurd hrest (splitSeg_ne_nil a')
      | cons s tail =>
        have hmid : splitSeg (a' ++ '/' :: b) = s :: (tail ++ splitSeg b) := by
          rw [ih, hrest]
          rfl
        rw [splitSeg_cons_ne c _ hc s (tail ++ splitSeg b) hmid,
          splitSeg_cons_ne c a' hc s tail hrest]
        rfl

theorem splitSeg_of_no_slash (s : List Char) (h : '/' ∉ s) : splitSeg s = [s] := by
  induction s with
  | nil => rfl
  | cons c cs ih =>
    have hc : c ≠ '/' := fun hcc => h (hcc ▸ List.mem_cons_self c cs)
    have hcs : '/' ∉ cs := fun hmem => h (List.mem_cons_of_mem c hmem)
    rw [splitSeg_cons_ne c cs hc cs [] (ih hcs)]

theorem splitSeg_joinSeg (ss : List (List Char)) (hne : ss ≠ [])
    (h : ∀ s ∈ ss, '/' ∉ s) : splitSeg (joinSeg ss) = ss := by
  induction ss with
  | nil => exact absurd rfl hne
  | cons s tail ih =>
    cases tail with
    | nil =>
      show splitSeg s = [s]
      exact splitSeg_of_no_slash s (h s (List.mem_cons_self s []))
    | cons t ts =>
      rw [joinSeg_cons_cons, splitSeg_append_slash,
        splitSeg_of_no_slash s (h s (List.mem_cons_self s _)),
        ih (by simp) (fun x hx => h x (List.mem_cons_of_mem s hx))]
      rfl

theorem no_slash_of_mem_splitSeg (l : List Char) :
    ∀ s ∈ splitSeg l, '/' ∉ s := by
  induction l with
  | nil =>
    intro s hs
    simp [splitSeg] at hs
    simp [hs]
  | cons c cs ih =>
    intro s hs
    by_cases hc : c = '/'
    · rw [hc, splitSeg_slash_cons] at hs
      rcases List.mem_cons.mp hs with h | h
      · simp [h]
      · exact ih s h
    · cases hrest : splitSeg cs with
      | nil => exact absurd hrest (splitSeg_ne_nil cs)
      | cons x tail =>
        rw [splitSeg_cons_ne c cs hc x tail hrest] at hs
        rcases List.mem_cons.mp hs with h | h
        · subst h
          intro hmem
          rcases List.mem_cons.mp hmem with h' | h'
          · exact hc h'.symm
          · exact ih x (hrest ▸ List.mem_cons_self x tail) h'
        · exact ih s (hrest ▸ List.mem_cons_of_mem x h)

/-- Append characters to the final segment of a segment list (the effect of
string-appending slash-free characters to a path). -/
def appendToLast : List (List Char) → List Char → List (List Char)
  | [], b => [b]
  | [s], b => [s ++ b]
  | s :: rest, b => s :: appendToLast rest b

theorem appendToLast_cons (s t : List Char) (ts : List (List Char)) (b : List Char) :
    appendToLast (s :: t :: ts) b = s :: appendToLast (t :: ts) b := rfl

theorem appendToLast_ne_nil (ss : List (List Char)) (b : List Char) :
    appendToLast ss b ≠ [] := by
  cases ss with
  | nil => simp [appendToLast]
  | cons s tail =>
    cases tail with
    | nil => simp [appendToLast]
    | cons t ts => rw [appendToLast_cons]; simp

theorem splitSeg_append_no_slash (a b : List Char) (hb : '/' ∉ b) :
    splitSeg (a ++ b) = appendToLast (splitSeg a) b := by
  induction a with
  | nil =>
    show splitSeg b = appendToLast [[]] b
    rw [splitSeg_of_no_slash b hb]
    rfl
  | cons c a' ih =>
    by_cases hc : c = '/'
    · rw [hc]
      show splitSeg ('/' :: (a' ++ b)) = appendToLast (splitSeg ('/' :: a')) b
      rw [splitSeg_slash_cons, splitSeg_slash_cons, ih]
      cases hrest : splitSeg a' with
      | nil => exact absurd hrest (splitSeg_ne_nil a')
      | cons s tail => rfl
    · cases hrest : splitSeg a' with
      | nil => exact absurd hrest (splitSeg_ne_nil a')
      | cons s tail =>
        cases tail with
        | nil =>
          have h1 := ih
          rw [hrest] at h1
          have h1' : splitSeg (a' ++ b) = [s ++ b] := h1
          show splitSeg (c :: (a' ++ b)) = appendToLast (splitSeg (c :: a')) b
          rw [splitSeg_cons_ne c (a' ++ b) hc (s ++ b) [] h1',
            splitSeg_cons_ne c a' hc s [] hrest]
          show [c :: (s ++ b)] = [(c :: s) ++ b]
          rw [List.cons_append]
        | cons t ts =>
          have h1 := ih
          rw [hrest, appendToLast_cons] at h1
          show splitSeg (c :: (a' ++ b)) = appendToLast (splitSeg (c :: a')) b
          rw [splitSeg_cons_ne c (a' ++ b) hc s (appendToLast (t :: ts) b) h1,
            splitSeg_cons_ne c a' hc s (t :: ts) hrest]
          rfl

theorem appendToLast_dropLast (ss : List (List Char)) (b : List Char)
    (hne : ss ≠ []) : (appendToLast ss b).dropLast = ss.dropLast := by
  induction ss with
  | nil => exact absurd rfl hne
  | cons s tail ih =>
    cases tail with
    | nil => rfl
    | cons t ts =>
      rw [appendToLast_cons,
        List.dropLast_cons_of_ne_nil (appendToLast_ne_nil (t :: ts) b),
        List.dropLast_cons_of_ne_nil (by simp : (t :: ts) ≠ []),
        ih (by simp)]

theorem appendToLast_getLast? (ss : List (List Char)) (b last : List Char)
    (h : ss.getLast? = some last) :
    (appendToLast ss b).getLast? = some (last ++ b) := by
  induction ss with
  | nil => simp at h
  | cons s tail ih =>
    cases tail with
    | nil =>
      simp at h
      subst h
      rfl
    | cons t ts =>
      rw [appendToLast_cons]
      rw [List.getLast?_cons_cons] at h
      cases hsh : appendToLast (t :: ts) b with
      | nil => exact absurd hsh (appendToLast_ne_nil (t :: ts) b)
      | cons u us =>
        rw [← hsh]
        have := ih h
        rw [hsh] at this
        rw [hsh]
        rw [List.getLast?_cons_cons.symm.trans rfl] at this
        exact this

theorem appendToLast_eq_concat (ss : List (List Char)) (b ls : List Char)
    (h : ss.getLast? = some ls) :
    appendToLast ss b = ss.dropLast ++ [ls ++ b] := by
  induction ss with
  | nil => simp at h
  | cons s tail ih =>
    cases tail with
    | nil =>
      simp at h
      subst h
      rfl
    | cons t ts =>
      rw [List.getLast?_cons_cons] at h
      rw [appendToLast_cons, ih h,
        List.dropLast_cons_of_ne_nil (by simp : (t :: ts) ≠ [])]
      rfl

theorem dropWhile_of_forall_false {α : Type} (p : α → Bool) (l : List α)
    (h : ∀ x ∈ l, p x = false) : l.dropWhile p = l := by
  cases l with
  | nil => rfl
  | cons a l' =>
    rw [List.dropWhile_cons, if_neg (by rw [h a (List.mem_cons_self a l')]; simp)]

theorem dropTrailingEmpty_of_all_nonempty (ss : List (List Char))
    (h : ∀ s ∈ ss, s.isEmpty = false) : dropTrailingEmpty ss = ss := by
  rw [dropTrailingEmpty,
    dropWhile_of_forall_false _ _ (fun x hx => h x (List.mem_reverse.mp hx)),
    List.reverse_reverse]

theorem normSegs_cons (isAbs : Bool) (s : List Char) (rest acc : List (List Char)) :
    normSegs isAbs (s :: rest) acc =
      (if s = [] ∨ s = ['.'] then normSegs isAbs rest acc
       else if s = ['.', '.'] then
         (match acc with
          | [] => if isAbs then normSegs isAbs rest [] else normSegs isAbs rest [s]
          | t :: tail =>
            if t = ['.', '.'] then normSegs isAbs rest (s :: acc)
            else normSegs isAbs rest tail)
       else normSegs isAbs rest (s :: acc)) := rfl

theorem normSegs_no_dotdot (isAbs : Bool) (l acc : List (List Char))
    (h : ∀ s ∈ l, s ≠ ['.', '.']) :
    normSegs isAbs l acc =
      acc.reverse ++ l.filter (fun s => !s.isEmpty && !(s == ['.'])) := by
  induction l generalizing acc with
  | nil => simp [normSegs]
  | cons s rest ih =>
    have htail : ∀ x ∈ rest, x ≠ ['.', '.'] :=
      fun x hx => h x (List.mem_cons_of_mem s hx)
    by_cases h1 : s = [] ∨ s = ['.']
    · have hpred : (!s.isEmpty && !(s == ['.'])) = false := by
        rcases h1 with h1 | h1 <;> subst h1 <;> rfl
      rw [normSegs_cons, if_pos h1, ih acc htail, List.filter_cons, hpred]
      simp
    · have h2 : s ≠ ['.', '.'] := h s (List.mem_cons_self s rest)
      have hpred : (!s.isEmpty && !(s == ['.'])) = true := by
        rw [not_or] at h1
        have hse : s.isEmpty = false := by
          cases s with
          | nil => exact absurd rfl h1.1
          | cons c cs => rfl
        have hsd : (s == ['.']) = false := by
          cases hsd : s == ['.'] with
          | false => rfl
          | true => exact absurd (eq_of_beq hsd) h1.2
        rw [hse, hsd]
        rfl
      rw [normSegs_cons, if_neg h1, if_neg h2, ih (s :: acc) htail, List.filter_cons, hpred]
      simp

theorem joinSeg_append (ss₁ ss₂ : List (List Char)) (h₁ : ss₁ ≠ [])
    (h₂ : ss₂ ≠ []) :
    joinSeg (ss₁ ++ ss₂) = joinSeg ss₁ ++ '/' :: joinSeg ss₂ := by
  induction ss₁ with
  | nil => exact absurd rfl h₁
  | cons s tail ih =>
    cases tail with
    | nil =>
      cases ss₂ with
      | nil => exact absurd rfl h₂
      | cons t ts =>
        show joinSeg (s :: t :: ts) = s ++ '/' :: joinSeg (t :: ts)
        rw [joinSeg_cons_cons]
    | cons u us =>
      cases ss₂ with
      | nil => exact absurd rfl h₂
      | cons t ts =>
        have hstep : (s :: u :: us) ++ t :: ts = s :: (u :: (us ++ t :: ts)) := by simp
        rw [hstep, joinSeg_cons_cons]
        have hih := ih (by simp)
        have hstep2 : (u :: us) ++ t :: ts = u :: (us ++ t :: ts) := by simp
        rw [hstep2] at hih
        rw [hih, joinSeg_cons_cons, List.append_assoc, List.cons_append]

theorem joinSeg_last_append (ss : List (List Char)) (x y : List Char) :
    joinSeg (ss ++ [x ++ y]) = joinSeg (ss ++ [x]) ++ y := by
  cases ss with
  | nil =>
    show joinSeg [x ++ y] = joinSeg [x] ++ y
    rfl
  | cons s tail =>
    rw [joinSeg_append (s :: tail) [x ++ y] (by simp) (by simp),
      joinSeg_append (s :: tail) [x] (by simp) (by simp), List.append_assoc]
    rfl

/-- A canonical path segment: non-empty and neither `.` nor `..`. -/
def cleanSeg (s : List Char) : Bool :=
  !s.isEmpty && !(s == ['.']) && !(s == ['.', '.'])

/-- A canonical relative path: every `/`-separated segment is clean (no
empty segments, no `.`/`..`, no leading or trailing slash). Distinct clean
relative paths always name distinct files. -/
def cleanRel (p : String) : Bool :=
  (splitSeg p.data).all cleanSeg

/-- A canonical cache root: clean relative path, or `/` followed by one
(absolute, no trailing slash). -/
def cleanRoot (root : String) : Bool :=
  match splitSeg root.data with
  | [] :: rest => !rest.isEmpty && rest.all cleanSeg
  | segs => segs.all cleanSeg

theorem cleanSeg_spec (s : List Char) (h : cleanSeg s = true) :
    s.isEmpty = false ∧ s ≠ [] ∧ s ≠ ['.'] ∧ s ≠ ['.', '.'] := by
  rw [cleanSeg] at h
  simp only [Bool.and_eq_true, Bool.not_eq_true'] at h
  refine ⟨h.1.1, ?_, ?_, ?_⟩
  · intro hc
    subst hc
    simp at h
  · intro hc
    have := h.1.2
    rw [hc] at this
    simp at this
  · intro hc
    have := h.2
    rw [hc] at this
    simp at this

theorem head_of_clean_first (l : List Char) (s : List Char)
    (hs : (splitSeg l).head? = some s) (hne : s ≠ []) :
    ∃ c cs, l = c :: cs ∧ c ≠ '/' := by
  cases l with
  | nil =>
    rw [show splitSeg [] = [[]] from rfl] at hs
    simp at hs
    exact absurd hs hne
  | cons c cs =>
    by_cases hc : c = '/'
    · rw [hc, splitSeg_slash_cons] at hs
      simp at hs
      exact absurd hs hne
    · exact ⟨c, cs, rfl, hc⟩

theorem isPrefixOf_slash_cons (c : Char) (rest : List Char) (hc : c ≠ '/') :
    (['/'] : List Char).isPrefixOf (c :: rest) = false := by
  show (('/' == c) && ([] : List Char).isPrefixOf rest) = false
  have : ('/' == c) = false := by
    cases hcc : ('/' == c) with
    | false => rfl
    | true => exact absurd (eq_of_beq hcc).symm hc
  rw [this]
  rfl

theorem isPrefixOf_slash_cons_self (rest : List Char) :
    (['/'] : List Char).isPrefixOf ('/' :: rest) = true := by
  show (('/' == '/') && ([] : List Char).isPrefixOf rest) = true
  simp [List.isPrefixOf]

theorem splitSeg_md (stem : String) (dl : List (List Char)) (ls : List Char)
    (hsplit : splitSeg stem.data = dl ++ [ls]) :
    splitSeg (stem ++ ".md").data = dl ++ [ls ++ ['.', 'm', 'd']] := by
  rw [String.data_append,
    splitSeg_append_no_slash stem.data (".md").data (by decide), hsplit,
    appendToLast_eq_concat (dl ++ [ls]) (".md").data ls (List.getLast?_concat dl),
    List.dropLast_concat]

theorem mem_concat_clean_nonempty (dl : List (List Char)) (ls : List Char)
    (hclean : ∀ s ∈ dl ++ [ls], cleanSeg s = true) (tail : List Char)
    (htail : tail ≠ []) :
    ∀ s ∈ dl ++ [ls ++ tail], s.isEmpty = false := by
  intro s hs
  rcases List.mem_append.mp hs with h | h
  · exact (cleanSeg_spec s (hclean s (List.mem_append.mpr (Or.inl h)))).1
  · have hse : s = ls ++ tail := by simpa using h
    subst hse
    cases htl : tail with
    | nil => exact absurd htl htail
    | cons c cs =>
      cases ls with
      | nil => rfl
      | cons a as => rfl

theorem jsDirname_md (stem : String) (dl : List (List Char)) (ls : List Char)
    (hsplit : splitSeg stem.data = dl ++ [ls])
    (hclean : ∀ s ∈ dl ++ [ls], cleanSeg s = true) :
    jsDirname (stem ++ ".md") = (if dl = [] then "." else ⟨joinSeg dl⟩) := by
  have hsplitp := splitSeg_md stem dl ls hsplit
  have hdte : dropTrailingEmpty (splitSeg (stem ++ ".md").data) =
      dl ++ [ls ++ ['.', 'm', 'd']] := by
    rw [hsplitp]
    exact dropTrailingEmpty_of_all_nonempty _
      (mem_concat_clean_nonempty dl ls hclean _ (by simp))
  have hfront : (dropTrailingEmpty (splitSeg (stem ++ ".md").data)).dropLast = dl := by
    rw [hdte, List.dropLast_concat]
  cases dl with
  | nil =>
    have hstem : ∃ c cs, stem.data = c :: cs ∧ c ≠ '/' := by
      refine head_of_clean_first stem.data ls ?_ ?_
      · rw [hsplit]
        rfl
      · exact (cleanSeg_spec ls (hclean ls (by simp))).2.1
    obtain ⟨c, cs, hdata, hc⟩ := hstem
    have hns : jsStartsWith (stem ++ ".md") "/" = false := by
      rw [jsStartsWith, String.data_append, hdata]
      exact isPrefixOf_slash_cons c _ hc
    simp only [jsDirname, hfront, if_pos rfl, hns]
    rfl
  | cons d₀ dtail =>
    have hd₀ : d₀ ≠ [] :=
      (cleanSeg_spec d₀ (hclean d₀ (by simp))).2.1
    simp only [jsDirname, hfront]
    rw [if_neg (by simp), if_neg (by simp [hd₀]), if_neg (by simp [hd₀]),
      if_neg (by simp [hd₀])]

theorem plainBase_md (stem : String) (dl : List (List Char)) (ls : List Char)
    (hsplit : splitSeg stem.data = dl ++ [ls])
    (hclean : ∀ s ∈ dl ++ [ls], cleanSeg s = true) :
    plainBase (stem ++ ".md") = ⟨ls ++ ['.', 'm', 'd']⟩ := by
  have hdte : dropTrailingEmpty (splitSeg (stem ++ ".md").data) =
      dl ++ [ls ++ ['.', 'm', 'd']] := by
    rw [splitSeg_md stem dl ls hsplit]
    exact dropTrailingEmpty_of_all_nonempty _
      (mem_concat_clean_nonempty dl ls hclean _ (by simp))
  unfold plainBase
  rw [hdte, List.getLast?_concat]

theorem stem_data_ne_nil (stem : String) (dl : List (List Char)) (ls : List Char)
    (hsplit : splitSeg stem.data = dl ++ [ls]) (hls : ls ≠ []) :
    stem.data ≠ [] := by
  intro hc
  rw [hc, show splitSeg [] = [[]] from rfl] at hsplit
  cases dl with
  | nil =>
    have : ([] : List Char) = ls := by simpa using hsplit
    exact hls this.symm
  | cons d dtl =>
    have : ([[]] : List (List Char)).length = (d :: dtl ++ [ls]).length :=
      congrArg List.length hsplit
    simp [List.length_append] at this

theorem jsBasenameExt_md (stem : String) (dl : List (List Char)) (ls : List Char)
    (hsplit : splitSeg stem.data = dl ++ [ls])
    (hclean : ∀ s ∈ dl ++ [ls], cleanSeg s = true) :
    jsBasenameExt (stem ++ ".md") ".md" = ⟨ls⟩ := by
  have hls : ls ≠ [] := (cleanSeg_spec ls (hclean ls (by simp))).2.1
  have hstemne : stem.data ≠ [] := stem_data_ne_nil stem dl ls hsplit hls
  have h2 : ¬ (stem ++ ".md" = ".md") := by
    intro hc
    have hd := congrArg String.data hc
    rw [String.data_append] at hd
    have hd' : stem.data ++ (".md").data = [] ++ (".md").data := by simpa using hd
    exact hstemne (List.append_cancel_right hd')
  have h3 : ¬ ((stem ++ ".md") ≠ "" ∧
      (stem ++ ".md").data.all (fun c => c = '/')) := by
    rintro ⟨-, hall⟩
    have hmem : 'd' ∈ (stem ++ ".md").data := by
      rw [String.data_append]
      exact List.mem_append.mpr (Or.inr (by simp))
    have := List.all_eq_true.mp hall 'd' hmem
    simp at this
  have hb := plainBase_md stem dl ls hsplit hclean
  simp only [jsBasenameExt, if_neg (by decide : ¬ (".md" : String) = ""),
    if_neg h2, if_neg h3, hb]
  rw [if_pos ?side]
  case side =>
    constructor
    · rw [List.length_append]
      have : 0 < ls.length := List.length_pos.mpr hls
      simp only [List.length_cons, List.length_nil]
      omega
    · exact List.isSuffixOf_iff_suffix.mpr (List.suffix_append ls ['.', 'm', 'd'])
  congr 1
  rw [List.length_append]
  show (ls ++ ['.', 'm', 'd']).take (ls.length + ['.', 'm', 'd'].length - ['.', 'm', 'd'].length) = ls
  rw [Nat.add_sub_cancel, List.take_left]

theorem joinSeg_head_ne_nil (s₀ : List Char) (tl : List (List Char))
    (h : s₀ ≠ []) : joinSeg (s₀ :: tl) ≠ [] := by
  cases tl with
  | nil => exact h
  | cons t ts =>
    rw [joinSeg_cons_cons]
    intro hc
    exact absurd (List.append_eq_nil.mp hc).2 (by simp)

theorem cleanSeg_pred (s : List Char) (h : cleanSeg s = true) :
    (!s.isEmpty && !(s == ['.'])) = true := by
  rw [cleanSeg] at h
  simp only [Bool.and_eq_true] at h
  rw [h.1.1, h.1.2]
  rfl

theorem pred_of_ne (s : List Char) (h1 : s ≠ []) (h2 : s ≠ ['.']) :
    (!s.isEmpty && !(s == ['.'])) = true := by
  rw [List.isEmpty_eq_false.mpr h1, beq_eq_false_iff_ne.mpr h2]
  rfl

theorem joinSep_three (a b c : String) :
    joinSep "/" [a, b, c] = a ++ "/" ++ (b ++ "/" ++ c) := rfl

theorem jsJoin_clean (cacheRoot : String) (mid : List (List Char))
    (lastSeg : List Char)
    (hroot : cleanRoot cacheRoot = true)
    (hmid : ∀ s ∈ mid, cleanSeg s = true)
    (hmidNoSlash : ∀ s ∈ mid, '/' ∉ s)
    (hlastne : lastSeg ≠ []) (hlastDot : lastSeg ≠ ['.'])
    (hlastDotDot : lastSeg ≠ ['.', '.'])
    (hlastNoSlash : '/' ∉ lastSeg)
    (hlastTrail : lastSeg.getLast? ≠ some '/') :
    jsJoin [cacheRoot, (if mid = [] then "." else ⟨joinSeg mid⟩), ⟨lastSeg⟩] =
      cacheRoot ++ "/" ++ ⟨joinSeg (mid ++ [lastSeg])⟩ := by
  -- facts about the middle (dirname) part
  have hmidStrFacts : ((if mid = [] then "." else (⟨joinSeg mid⟩ : String)) ≠ "")
      ∧ splitSeg (if mid = [] then "." else (⟨joinSeg mid⟩ : String)).data =
          (if mid = [] then [['.']] else mid)
      ∧ ((if mid = [] then [['.']] else mid)).filter
          (fun s => !s.isEmpty && !(s == ['.'])) = mid
      ∧ (∀ s ∈ (if mid = [] then [['.']] else mid), s ≠ ['.', '.']) := by
    by_cases hmidnil : mid = []
    · subst hmidnil
      refine ⟨by decide, by decide, by decide, by decide⟩
    · rw [if_neg hmidnil, if_neg hmidnil]
      obtain ⟨m₀, mtl, hmeq⟩ : ∃ m₀ mtl, mid = m₀ :: mtl := by
        cases mid with
        | nil => exact absurd rfl hmidnil
        | cons a l => exact ⟨a, l, rfl⟩
      have hm₀ : m₀ ≠ [] :=
        (cleanSeg_spec m₀ (hmid m₀ (hmeq ▸ List.mem_cons_self m₀ mtl))).2.1
      refine ⟨?_, ?_, ?_, ?_⟩
      · intro hc
        have hd : joinSeg mid = ([] : List Char) := congrArg String.data hc
        rw [hmeq] at hd
        exact joinSeg_head_ne_nil m₀ mtl hm₀ hd
      · exact splitSeg_joinSeg mid (by rw [hmeq]; simp) hmidNoSlash
      · exact List.filter_eq_self.mpr (fun s hs => cleanSeg_pred s (hmid s hs))
      · exact fun s hs => (cleanSeg_spec s (hmid s hs)).2.2.2
  obtain ⟨hmidne, hmidsplit, hmidfilter, hmidnodd⟩ := hmidStrFacts
  set midStr : String := (if mid = [] then "." else (⟨joinSeg mid⟩ : String)) with hmidStr
  -- the joined string before normalization
  have hrootne : cacheRoot.data ≠ [] := by
    intro hc
    rw [cleanRoot, hc] at hroot
    simp [splitSeg, cleanSeg] at hroot
  have hfilter : ([cacheRoot, midStr, (⟨lastSeg⟩ : String)].filter
      (fun s => s ≠ "")) = [cacheRoot, midStr, (⟨lastSeg⟩ : String)] := by
    refine List.filter_eq_self.mpr ?_
    intro a ha
    rcases List.mem_cons.mp ha with h | h
    · subst h
      simp only [decide_eq_true_eq]
      intro hc
      exact hrootne (congrArg String.data hc)
    rcases List.mem_cons.mp h with h | h
    · subst h
      simpa using hmidne
    · have : a = (⟨lastSeg⟩ : String) := by simpa using h
      subst this
      simp only [decide_eq_true_eq]
      intro hc
      exact hlastne (congrArg String.data hc)
  have hjoined : jsJoin [cacheRoot, midStr, (⟨lastSeg⟩ : String)] =
      jsNormalize (cacheRoot ++ "/" ++ (midStr ++ "/" ++ (⟨lastSeg⟩ : String))) := by
    rw [jsJoin]
    rw [hfilter, joinSep_three]
    rw [if_neg (append_ne_empty_of_left_ne_empty _ _
      (by rw [String.data_append]; simp [hrootne]))]
  rw [hjoined]
  -- data of the joined string
  have hdata : (cacheRoot ++ "/" ++ (midStr ++ "/" ++ (⟨lastSeg⟩ : String))).data =
      cacheRoot.data ++ '/' :: (midStr.data ++ '/' :: lastSeg) := by
    rw [String.data_append, String.data_append, String.data_append,
      String.data_append]
    show cacheRoot.data ++ ['/'] ++ (midStr.data ++ ['/'] ++ lastSeg) = _
    rw [List.append_assoc cacheRoot.data, List.append_assoc midStr.data]
    rfl
  have hne2 : (cacheRoot ++ "/" ++ (midStr ++ "/" ++ (⟨lastSeg⟩ : String))) ≠ "" := by
    intro hc
    have := congrArg String.data hc
    rw [hdata] at this
    exact hrootne (List.append_eq_nil.mp this).1
  -- segments of the joined string
  have hsegs : splitSeg (cacheRoot ++ "/" ++
      (midStr ++ "/" ++ (⟨lastSeg⟩ : String))).data =
      splitSeg cacheRoot.data ++ ((if mid = [] then [['.']] else mid) ++ [lastSeg]) := by
    rw [hdata, splitSeg_append_slash, splitSeg_append_slash,
      splitSeg_of_no_slash lastSeg hlastNoSlash, hmidsplit]
  -- no trailing slash on the joined string
  have htrail : ¬ ((cacheRoot ++ "/" ++
      (midStr ++ "/" ++ (⟨lastSeg⟩ : String))).data.getLast? = some '/') := by
    rw [hdata]
    obtain ⟨x, hx⟩ : ∃ x, lastSeg.getLast? = some x := by
      cases hl : lastSeg.getLast? with
      | none => exact absurd (List.getLast?_eq_none_iff.mp hl) hlastne
      | some y => exact ⟨y, rfl⟩
    have h1 : (cacheRoot.data ++ '/' :: (midStr.data ++ '/' :: lastSeg)).getLast? =
        some x := by
      rw [List.getLast?_append]
      have h2 : ('/' :: (midStr.data ++ '/' :: lastSeg)).getLast? = some x := by
        have h3 : ('/' :: (midStr.data ++ '/' :: lastSeg)) =
            ('/' :: midStr.data ++ '/' :: lastSeg) := by simp
        rw [h3, List.getLast?_append]
        have h4 : ('/' :: lastSeg).getLast? = some x := by
          rw [show ('/' :: lastSeg) = ['/'] ++ lastSeg from rfl,
            List.getLast?_append, hx]
          rfl
        rw [h4]
        rfl
      rw [h2]
      rfl
    rw [h1]
    intro hc
    rw [Option.some.injEq] at hc
    rw [hc] at hx
    exact hlastTrail hx
  have hlastpred : (!lastSeg.isEmpty && !(lastSeg == ['.'])) = true :=
    pred_of_ne lastSeg hlastne hlastDot
  have hfilterlast : ([lastSeg] : List (List Char)).filter
      (fun s => !s.isEmpty && !(s == ['.'])) = [lastSeg] := by
    rw [List.filter_cons, if_pos hlastpred]
    rfl
  cases hseg : splitSeg cacheRoot.data with
  | nil => exact absurd hseg (splitSeg_ne_nil _)
  | cons s₀ rest =>
    have hrootjoin : joinSeg (s₀ :: rest) = cacheRoot.data := by
      rw [← hseg, joinSeg_splitSeg]
    cases s₀ with
    | nil =>
      -- absolute cache root
      have hroot' : (!rest.isEmpty && rest.all cleanSeg) = true := by
        rw [cleanRoot, hseg] at hroot
        exact hroot
      have hroot'' : rest.isEmpty = false ∧ rest.all cleanSeg = true := by
        have hcopy := hroot'
        simp only [Bool.and_eq_true, Bool.not_eq_true'] at hcopy
        exact hcopy
      have hrestne : rest ≠ [] := List.isEmpty_eq_false.mp hroot''.1
      have hrestclean : ∀ s ∈ rest, cleanSeg s = true :=
        List.all_eq_true.mp hroot''.2
      obtain ⟨r₀, rtl, hrr⟩ : ∃ r₀ rtl, rest = r₀ :: rtl := by
        cases rest with
        | nil => exact absurd rfl hrestne
        | cons a l => exact ⟨a, l, rfl⟩
      have hr₀ : r₀ ≠ [] :=
        (cleanSeg_spec r₀ (hrestclean r₀ (hrr ▸ List.mem_cons_self r₀ rtl))).2.1
      have hcr : cacheRoot.data = '/' :: joinSeg rest := by
        rw [← hrootjoin, hrr]
        rfl
      have hAbs : jsStartsWith (cacheRoot ++ "/" ++
          (midStr ++ "/" ++ (⟨lastSeg⟩ : String))) "/" = true := by
        rw [jsStartsWith, hdata, hcr]
        exact isPrefixOf_slash_cons_self _
      have hnodd : ∀ s ∈ ([] :: rest) ++
          ((if mid = [] then [['.']] else mid) ++ [lastSeg]), s ≠ ['.', '.'] := by
        intro s hs
        rcases List.mem_append.mp hs with h | h
        · rcases List.mem_cons.mp h with h' | h'
          · subst h'
            simp
          · exact (cleanSeg_spec s (hrestclean s h')).2.2.2
        · rcases List.mem_append.mp h with h' | h'
          · exact hmidnodd s h'
          · have hsl : s = lastSeg := by simpa using h'
            subst hsl
            exact hlastDotDot
      have hnorm : normSegs true (splitSeg (cacheRoot ++ "/" ++
          (midStr ++ "/" ++ (⟨lastSeg⟩ : String))).data) [] =
          rest ++ (mid ++ [lastSeg]) := by
        rw [hsegs, hseg, normSegs_no_dotdot true _ [] hnodd]
        rw [List.filter_append, List.filter_cons,
          if_neg (by decide : ¬ ((!List.isEmpty ([] : List Char) &&
            !(([] : List Char) == ['.'])) = true)),
          List.filter_eq_self.mpr (fun s hs => cleanSeg_pred s (hrestclean s hs)),
          List.filter_append, hmidfilter, hfilterlast]
        simp
      simp only [jsNormalize]
      rw [if_neg hne2, hAbs, if_pos rfl, hnorm]
      have hcorene : joinSeg (rest ++ (mid ++ [lastSeg])) ≠ [] := by
        rw [hrr]
        exact joinSeg_head_ne_nil r₀ _ hr₀
      rw [if_neg hcorene, if_neg htrail, String.append_empty]
      refine stringExt _ _ ?_
      show '/' :: joinSeg (rest ++ (mid ++ [lastSeg])) =
        (cacheRoot ++ "/" ++ (⟨joinSeg (mid ++ [lastSeg])⟩ : String)).data
      rw [String.data_append, String.data_append, hcr,
        joinSeg_append rest (mid ++ [lastSeg]) hrestne (by simp)]
      simp
    | cons c₀ ccs =>
      -- relative cache root
      have hroot' : (((c₀ :: ccs) :: rest).all cleanSeg) = true := by
        rw [cleanRoot, hseg] at hroot
        exact hroot
      have hrootclean : ∀ s ∈ (c₀ :: ccs) :: rest, cleanSeg s = true :=
        List.all_eq_true.mp hroot'
      have hc₀ : c₀ ≠ '/' := by
        have hmem := no_slash_of_mem_splitSeg cacheRoot.data (c₀ :: ccs)
          (hseg ▸ List.mem_cons_self _ _)
        exact fun hcc => hmem (hcc ▸ List.mem_cons_self c₀ ccs)
      obtain ⟨X, hcr⟩ : ∃ X, cacheRoot.data = c₀ :: X := by
        cases rest with
        | nil => exact ⟨ccs, hrootjoin.symm⟩
        | cons t ts =>
          refine ⟨ccs ++ '/' :: joinSeg (t :: ts), ?_⟩
          rw [← hrootjoin, joinSeg_cons_cons]
          rfl
      have hAbs : jsStartsWith (cacheRoot ++ "/" ++
          (midStr ++ "/" ++ (⟨lastSeg⟩ : String))) "/" = false := by
        rw [jsStartsWith, hdata, hcr]
        exact isPrefixOf_slash_cons c₀ _ hc₀
      have hnodd : ∀ s ∈ ((c₀ :: ccs) :: rest) ++
          ((if mid = [] then [['.']] else mid) ++ [lastSeg]), s ≠ ['.', '.'] := by
        intro s hs
        rcases List.mem_append.mp hs with h | h
        · exact (cleanSeg_spec s (hrootclean s h)).2.2.2
        · rcases List.mem_append.mp h with h' | h'
          · exact hmidnodd s h'
          · have hsl : s = lastSeg := by simpa using h'
            subst hsl
            exact hlastDotDot
      have hnorm : normSegs false (splitSeg (cacheRoot ++ "/" ++
          (midStr ++ "/" ++ (⟨lastSeg⟩ : String))).data) [] =
          ((c₀ :: ccs) :: rest) ++ (mid ++ [lastSeg]) := by
        rw [hsegs, hseg, normSegs_no_dotdot false _ [] hnodd]
        rw [List.filter_append,
          List.filter_eq_self.mpr (fun s hs => cleanSeg_pred s (hrootclean s hs)),
          List.filter_append, hmidfilter, hfilterlast]
        simp
      simp only [jsNormalize]
      rw [if_neg hne2, hAbs, if_neg (by simp), hnorm]
      have hcorene : joinSeg (((c₀ :: ccs) :: rest) ++ (mid ++ [lastSeg])) ≠ [] :=
        joinSeg_head_ne_nil (c₀ :: ccs) _ (by simp)
      rw [if_neg hcorene, if_neg htrail, String.append_empty]
      refine stringExt _ _ ?_
      show joinSeg (((c₀ :: ccs) :: rest) ++ (mid ++ [lastSeg])) =
        (cacheRoot ++ "/" ++ (⟨joinSeg (mid ++ [lastSeg])⟩ : String)).data
      rw [String.data_append, String.data_append,
        joinSeg_append ((c₀ :: ccs) :: rest) (mid ++ [lastSeg]) (by simp) (by simp),
        hrootjoin]
      simp

theorem cachePathFor_md_char (cacheRoot stem : String)
    (hroot : cleanRoot cacheRoot = true) (hstem : cleanRel stem = true) :
    cachePathFor cacheRoot none (stem ++ ".md") =
      cacheRoot ++ "/" ++ (stem ++ ".json") := by
  obtain ⟨dl, ls, hsplit⟩ : ∃ dl ls, splitSeg stem.data = dl ++ [ls] := by
    rcases List.eq_nil_or_concat (splitSeg stem.data) with h | ⟨L, b, h⟩
    · exact absurd h (splitSeg_ne_nil _)
    · exact ⟨L, b, by rw [h, List.concat_eq_append]⟩
  have hclean : ∀ s ∈ dl ++ [ls], cleanSeg s = true := by
    rw [← hsplit]
    exact List.all_eq_true.mp hstem
  have hdirname := jsDirname_md stem dl ls hsplit hclean
  have hbase := jsBasenameExt_md stem dl ls hsplit hclean
  have hjson : ((⟨ls⟩ : String) ++ ".json") = ⟨ls ++ ['.', 'j', 's', 'o', 'n']⟩ := by
    refine stringExt _ _ ?_
    rw [String.data_append]
  have hlastne : ls ++ ['.', 'j', 's', 'o', 'n'] ≠ [] := by simp
  have hlastDot : ls ++ ['.', 'j', 's', 'o', 'n'] ≠ ['.'] := by
    intro hc
    have := congrArg List.length hc
    simp [List.length_append] at this
  have hlastDotDot : ls ++ ['.', 'j', 's', 'o', 'n'] ≠ ['.', '.'] := by
    intro hc
    have := congrArg List.length hc
    simp [List.length_append] at this
  have hlsInSplit : ls ∈ splitSeg stem.data := by
    rw [hsplit]
    exact List.mem_append.mpr (Or.inr (by simp))
  have hlastNoSlash : '/' ∉ ls ++ ['.', 'j', 's', 'o', 'n'] := by
    intro hc
    rcases List.mem_append.mp hc with h | h
    · exact no_slash_of_mem_splitSeg stem.data ls hlsInSplit h
    · simp at h
  have hlastTrail : (ls ++ ['.', 'j', 's', 'o', 'n']).getLast? ≠ some '/' := by
    rw [List.getLast?_append]
    intro hc
    simp at hc
  have hjoin := jsJoin_clean cacheRoot dl (ls ++ ['.', 'j', 's', 'o', 'n'])
    hroot
    (fun s hs => hclean s (List.mem_append.mpr (Or.inl hs)))
    (fun s hs => no_slash_of_mem_splitSeg stem.data s
      (hsplit ▸ List.mem_append.mpr (Or.inl hs)))
    hlastne hlastDot hlastDotDot hlastNoSlash hlastTrail
  have hfinal : (⟨joinSeg (dl ++ [ls ++ ['.', 'j', 's', 'o', 'n']])⟩ : String) =
      stem ++ ".json" := by
    refine stringExt _ _ ?_
    show joinSeg (dl ++ [ls ++ ['.', 'j', 's', 'o', 'n']]) = (stem ++ ".json").data
    rw [joinSeg_last_append, String.data_append, ← hsplit, joinSeg_splitSeg]
  simp only [cachePathFor]
  rw [hdirname, hbase, hjson, hjoin, hfinal]

/-- C9 counterexample — cache path collision between distinct source files:
the paths `docs/a.md` and `docs/a` name different files, yet both map to
`<cacheRoot>/docs/a.json`, because `basename(p, ".md")` leaves a path
without the `.md` extension unchanged and `.json` is appended regardless. -/
theorem cachePathFor_collision :
    cachePathFor ".praxis/cache/validation" none "docs/a.md" =
      cachePathFor ".praxis/cache/validation" none "docs/a"
    ∧ ("docs/a.md" : String) ≠ "docs/a" := by
  decide

/-- C9 (amended) — cache path injectivity restricted to canonical `.md`
document paths: for clean relative stems, distinct documents `stem.md` map
to distinct cache paths; the mapping sends `stem.md` to
`cacheRoot/stem.json` (directory structure preserved, `.md` swapped for
`.json`), and a document path under the project root is first made
root-relative (stripping the root prefix changes nothing). -/
theorem cachePathFor_md_injective (cacheRoot stem₁ stem₂ R : String)
    (hroot : cleanRoot cacheRoot = true)
    (h₁ : cleanRel stem₁ = true) (h₂ : cleanRel stem₂ = true)
    (hne : stem₁ ≠ stem₂) (hR : R.data.getLast? ≠ some '/') :
    cachePathFor cacheRoot none (stem₁ ++ ".md") ≠
      cachePathFor cacheRoot none (stem₂ ++ ".md")
    ∧ cachePathFor cacheRoot none (stem₁ ++ ".md") =
        cacheRoot ++ "/" ++ (stem₁ ++ ".json")
    ∧ cachePathFor cacheRoot (some R) ((R ++ "/") ++ (stem₁ ++ ".md")) =
        cachePathFor cacheRoot none (stem₁ ++ ".md") := by
  have hc₁ := cachePathFor_md_char cacheRoot stem₁ hroot h₁
  have hc₂ := cachePathFor_md_char cacheRoot stem₂ hroot h₂
  refine ⟨?_, hc₁, ?_⟩
  · rw [hc₁, hc₂]
    intro hc
    apply hne
    have hd := congrArg String.data hc
    rw [String.data_append, String.data_append, String.data_append,
      String.data_append, String.data_append, String.data_append] at hd
    have hd₂ := List.append_cancel_left hd
    have hd₃ := List.append_cancel_right hd₂
    exact stringExt _ _ hd₃
  · simp only [cachePathFor]
    rw [if_neg hR]
    have hpre : jsStartsWith ((R ++ "/") ++ (stem₁ ++ ".md")) (R ++ "/") = true := by
      rw [jsStartsWith, String.data_append]
      exact List.isPrefixOf_iff_prefix.mpr (List.prefix_append _ _)
    rw [hpre]
    simp only [if_pos rfl]
    have hdrop : sliceFrom ((R ++ "/") ++ (stem₁ ++ ".md")) (R ++ "/").data.length =
        stem₁ ++ ".md" := by
      refine stringExt _ _ ?_
      show (((R ++ "/") ++ (stem₁ ++ ".md")).data).drop (R ++ "/").data.length =
        (stem₁ ++ ".md").data
      rw [String.data_append]
      exact List.drop_left _ _
    rw [hdrop]
    simp

/-- C9 witness — injectivity, the `.md`→`.json` characterization and the
project-root stripping at concrete clean paths. -/
theorem cachePathFor_md_injective_witness :
    cachePathFor ".praxis/cache/validation" none ("roles/dev" ++ ".md") ≠
      cachePathFor ".praxis/cache/validation" none ("roles/qa" ++ ".md")
    ∧ cachePathFor ".praxis/cache/validation" none ("roles/dev" ++ ".md") =
        ".praxis/cache/validation" ++ "/" ++ ("roles/dev" ++ ".json")
    ∧ cachePathFor ".praxis/cache/validation" (some "/home/user/project")
        (("/home/user/project" ++ "/") ++ ("roles/dev" ++ ".md")) =
        cachePathFor ".praxis/cache/validation" none ("roles/dev" ++ ".md") :=
  cachePathFor_md_injective ".praxis/cache/validation" "roles/dev" "roles/qa"
    "/home/user/project" (by decide) (by decide) (by decide) (by decide) (by decide)

/-! ## Content fingerprint (`contentHash` in `src/validator/cache-manager.ts`)

`contentHash` is `createHash("sha256").update(doc + readme).digest("hex").slice(0, 8)`.
SHA-256 is embedded below in full (FIPS 180-4), operating on the UTF-8
bytes of the concatenated inputs as Node's `Hash.update` does on strings;
the implementation matches the standard test vectors
(e.g. `sha256Hex (utf8Bytes "abc") = "ba7816bf…5ad"`). -/

def rotr32 (n x : Nat) : Nat :=
  ((x >>> n) ||| (x <<< (32 - n))) &&& 0xFFFFFFFF

def smallSigma0 (x : Nat) : Nat := (rotr32 7 x) ^^^ (rotr32 18 x) ^^^ (x >>> 3)

def smallSigma1 (x : Nat) : Nat := (rotr32 17 x) ^^^ (rotr32 19 x) ^^^ (x >>> 10)

def bigSigma0 (x : Nat) : Nat := (rotr32 2 x) ^^^ (rotr32 13 x) ^^^ (rotr32 22 x)

def bigSigma1 (x : Nat) : Nat := (rotr32 6 x) ^^^ (rotr32 11 x) ^^^ (rotr32 25 x)

def chWord (x y z : Nat) : Nat := (x &&& y) ^^^ ((x ^^^ 0xFFFFFFFF) &&& z)

def majWord (x y z : Nat) : Nat := (x &&& y) ^^^ (x &&& z) ^^^ (y &&& z)

def K256 : List Nat :=
  [1116352408, 1899447441, 3049323471, 3921009573, 961987163, 1508970993,
   2453635748, 2870763221, 3624381080, 310598401, 607225278, 1426881987,
   1925078388, 2162078206, 2614888103, 3248222580, 3835390401, 4022224774,
   264347078, 604807628, 770255983, 1249150122, 1555081692, 1996064986,
   2554220882, 2821834349, 2952996808, 3210313671, 3336571891, 3584528711,
   113926993, 338241895, 666307205, 773529912, 1294757372, 1396182291,
   1695183700, 1986661051, 2177026350, 2456956037, 2730485921, 2820302411,
   3259730800, 3345764771, 3516065817, 3600352804, 4094571909, 275423344,
   430227734, 506948616, 659060556, 883997877, 958139571, 1322822218,
   1537002063, 1747873779, 1955562222, 2024104815, 2227730452, 2361852424,
   2428436474, 2756734187, 3204031479, 3329325298]

def H256 : List Nat :=
  [1779033703, 3144134277, 1013904242, 2773480762,
   1359893119, 2600822924, 528734635, 1541459225]

def lenBytesBE (bitLen : Nat) : List Nat :=
  [(bitLen >>> 56) &&& 255, (bitLen >>> 48) &&& 255, (bitLen >>> 40) &&& 255,
   (bitLen >>> 32) &&& 255, (bitLen >>> 24) &&& 255, (bitLen >>> 16) &&& 255,
   (bitLen >>> 8) &&& 255, bitLen &&& 255]

def padMessage (msg : List Nat) : List Nat :=
  msg ++ 0x80 :: List.replicate ((119 - msg.length % 64) % 64) 0 ++
    lenBytesBE (msg.length * 8)

def toWords : List Nat → List Nat
  | a :: b :: c :: d :: rest => (((a * 256 + b) * 256 + c) * 256 + d) :: toWords rest
  | _ => []

def blocks16 : List Nat → List (List Nat)
  | w0 :: w1 :: w2 :: w3 :: w4 :: w5 :: w6 :: w7 ::
    w8 :: w9 :: w10 :: w11 :: w12 :: w13 :: w14 :: w15 :: rest =>
    [w0, w1, w2, w3, w4, w5, w6, w7, w8, w9, w10, w11, w12, w13, w14, w15] ::
      blocks16 rest
  | _ => []

def extendW : Nat → List Nat → List Nat
  | 0, acc => acc
  | n + 1, acc =>
    extendW n
      (((smallSigma1 (acc.getD 1 0) + acc.getD 6 0 + smallSigma0 (acc.getD 14 0) +
        acc.getD 15 0) % 4294967296) :: acc)

def compressStep (p : Nat × Nat) (st : List Nat) : List Nat :=
  match st with
  | [a, b, c, d, e, f, g, h] =>
    ((fun t1 t2 =>
      [(t1 + t2) % 4294967296, a, b, c, (d + t1) % 4294967296, e, f, g])
      ((h + bigSigma1 e + chWord e f g + p.2 + p.1) % 4294967296)
      ((bigSigma0 a + majWord a b c) % 4294967296))
  | _ => st

def compressBlock (h : List Nat) (block : List Nat) : List Nat :=
  (h.zip (((extendW 48 block.reverse).reverse.zip K256).foldl
    (fun s p => compressStep p s) h)).map
    (fun q => (q.1 + q.2) % 4294967296)

def sha256Words (msg : List Nat) : List Nat :=
  (blocks16 (toWords (padMessage msg))).foldl compressBlock H256

def hexDigitChar (n : Nat) : Char :=
  if n < 10 then Char.ofNat (48 + n) else Char.ofNat (87 + n)

def wordToHex (w : Nat) : List Char :=
  [hexDigitChar ((w >>> 28) &&& 15), hexDigitChar ((w >>> 24) &&& 15),
   hexDigitChar ((w >>> 20) &&& 15), hexDigitChar ((w >>> 16) &&& 15),
   hexDigitChar ((w >>> 12) &&& 15), hexDigitChar ((w >>> 8) &&& 15),
   hexDigitChar ((w >>> 4) &&& 15), hexDigitChar (w &&& 15)]

def sha256Hex (msg : List Nat) : String :=
  ⟨(sha256Words msg).flatMap wordToHex⟩

def utf8Bytes (s : String) : List Nat :=
  s.data.flatMap (fun c =>
    (fun n =>
      if n < 0x80 then [n]
      else if n < 0x800 then [0xC0 ||| (n >>> 6), 0x80 ||| (n &&& 0x3F)]
      else if n < 0x10000 then
        [0xE0 ||| (n >>> 12), 0x80 ||| ((n >>> 6) &&& 0x3F), 0x80 ||| (n &&& 0x3F)]
      else
        [0xF0 ||| (n >>> 18), 0x80 ||| ((n >>> 12) &&& 0x3F),
         0x80 ||| ((n >>> 6) &&& 0x3F), 0x80 ||| (n &&& 0x3F)]) c.toNat)

def contentHash (documentContent readmeContent : String) : String :=
  ⟨(sha256Hex (utf8Bytes (documentContent ++ readmeContent))).data.take 8⟩


/-- C8 counterexample — changing the document while holding the spec fixed
does not always change the fingerprint: the hash is truncated to the first
8 hex characters, and these two distinct documents collide on it under the
same spec text. -/
theorem contentHash_truncation_collision :
    contentHash "doc1f66" "# Spec" = contentHash "doc4e2e" "# Spec"
    ∧ ("doc1f66" : String) ≠ "doc4e2e" := by
  decide

/-- C8 (amended) — `contentHash` is stable across repeated calls with
identical inputs, and changing an input generally but not universally
changes the digest: the truncation to 8 hex characters admits collisions
between distinct inputs, so sensitivity holds only with high probability,
not for all pairs. -/
theorem contentHash_stable_and_truncated :
    (∀ d s : String, contentHash d s = contentHash d s)
    ∧ contentHash "Review PRs." "# Spec" ≠ contentHash "Review PRs" "# Spec"
    ∧ ∃ d₁ d₂ s : String, d₁ ≠ d₂ ∧ contentHash d₁ s = contentHash d₂ s := by
  refine ⟨fun d s => rfl, by decide, "doc1f66", "doc4e2e", "# Spec", by decide, by decide⟩
